import Mathlib

/-!
# filesofpix: restoration of a corrupted plain pgm into a raw pgm

A shallow embedding of `readaline.c`, `processing.c` and `restoration.c`.

Conventions of the embedding.

* A byte is a `Fin 256`.  An input stream (`FILE *`) is the list of the bytes
  that are still unread; `fgetc` at the end of the list yields `-1`.
* A heap buffer obtained from `malloc` is a `List (Option Byte)` whose length
  is the allocated size; `none` is a byte that was never written (its value is
  indeterminate).  A store or a load at an index that is not below the length
  is a fault and makes the whole computation `none`.
* A `char *` cursor into a line (`remaining`, `line + counter`) is the suffix
  of the line that starts at the cursor; dereferencing the empty suffix is a
  read past the end of the line and is a fault.
* Loops that are not structurally recursive take a fuel argument; running out
  of fuel is `none`.  The entry points supply a fuel that is proved to suffice.
* The counters of type `size_t` are natural numbers.  The counters of type
  `int` of `plain_to_infusion` and `plain_to_raw` are embedded twice: as
  natural numbers without a bound, and, in the definitions with a name that
  ends in `_int`, with an increment at `INT_MAX` as a fault, since a signed
  overflow is undefined behaviour.  The two embeddings agree on every line of
  at most `2^31` bytes, newline included (`plain_to_infusion_int_eq`,
  `plain_to_raw_int_eq`, `restoration_int_eq`).  The narrowing casts `(int)`
  and `(char)` are modelled exactly.
* Standard output is the list of the bytes written, `none` standing for a
  byte whose value is indeterminate (a row byte that was never written).
-/

namespace Filesofpix

/-! ## Bytes and heap buffers -/

abbrev Byte := Fin 256

/-- A heap buffer: one cell per allocated byte, `none` when never written. -/
abbrev Buf := List (Option Byte)

/-- The newline character `'\n'`. -/
def NL : Byte := 10

/-- The C library `isdigit` in the C locale, applied to a `char`: the ASCII
digits `'0'` to `'9'`; a byte above 127 is no digit. -/
def isdigit (c : Byte) : Bool := decide (48 ≤ c.val) && decide (c.val ≤ 57)

/-- The C library `isspace` in the C locale. -/
def isspace (c : Byte) : Bool := decide (c.val = 32) || (decide (9 ≤ c.val) && decide (c.val ≤ 13))

/-- The cast `(char)` of an `int`: the low eight bits. -/
def toChar (v : Int) : Byte := Fin.ofNat (v % 256).toNat

/-- The cast `(int)` of a `long`: the low 32 bits, read as a signed number. -/
def toInt32 (v : Int) : Int := (v + 2147483648) % 4294967296 - 2147483648

def LONG_MAX : Int := 9223372036854775807

def LONG_MIN : Int := -9223372036854775808

/-- The call `malloc(n)`: `n` bytes, none of them written. -/
def malloc (n : Nat) : Buf := List.replicate n none

/-- The assignment `buf[i] = c`; a fault when `i` is outside the buffer. -/
def store (buf : Buf) (i : Nat) (c : Byte) : Option Buf :=
  if i < buf.length then some (buf.set i (some c)) else none

/-- The read `buf[i]`; a fault when `i` is outside the buffer, and an
indeterminate byte when the cell was never written. -/
def load (buf : Buf) (i : Nat) : Option (Option Byte) := buf[i]?

/-- The bytes of a buffer prefix, when all of them were written. -/
def initialized : Buf → Option (List Byte)
  | [] => some []
  | none :: _ => none
  | some c :: rest => (initialized rest).map (fun cs => c :: cs)

/-! ## readaline.c -/

/-- The function `get_char`: `fgetc` on the stream, then `(*counter)++`.
Returns the value read (`-1` at the end of the stream), the stream after the
read and the new counter. -/
def get_char (inputfd : List Byte) (counter : Nat) : Int × List Byte × Nat :=
  match inputfd with
  | [] => (-1, [], counter + 1)
  | c :: rest => ((c.val : Int), rest, counter + 1)

/-- The call `realloc(buf, n)`: a buffer of `n` bytes that starts with the
bytes of `buf`. -/
def realloc (buf : Buf) (n : Nat) : Buf := (buf ++ malloc (n - buf.length)).take n

/-- The function `expand`: doubles `*size` and reallocates the line to the new
size.  Returns the new line and the new `*size`. -/
def expand (line : Buf) (size : Nat) : Buf × Nat :=
  (realloc line (size * 2), size * 2)

/-- The loop of `read_through`.  The result is the final `c_int`, `counter`,
`init_cap`, line buffer and stream. -/
def read_through : Nat → Int → Nat → Nat → Buf → List Byte →
    Option (Int × Nat × Nat × Buf × List Byte)
  | 0, _, _, _, _, _ => none
  | fuel + 1, c_int, counter, init_cap, line, inputfd =>
    if toChar c_int ≠ NL ∧ c_int ≠ -1 then
      let grown := if counter = init_cap - 1 then expand line init_cap else (line, init_cap)
      match store grown.1 (counter - 1) (toChar c_int) with
      | none => none
      | some line1 =>
        let r := get_char inputfd counter
        read_through fuel r.1 r.2.2 grown.2 line1 r.2.1
    else some (c_int, counter, init_cap, line, inputfd)

/-- The function `readaline`.  Returns the return value, `*datapp` (`none` for
`NULL`, otherwise the first `counter` bytes of the line buffer) and the stream
after the call. -/
def readaline (inputfd : List Byte) : Option (Nat × Option (List Byte) × List Byte) :=
  let initial_capacity := 1000
  let line := malloc initial_capacity
  let r := get_char inputfd 0
  match read_through (inputfd.length + 1) r.1 r.2.2 initial_capacity line r.2.1 with
  | none => none
  | some (c_int, counter, _, line1, fd) =>
    if c_int = -1 then some (0, none, fd)
    else
      match store line1 (counter - 1) NL with
      | none => none
      | some line2 =>
        match initialized (line2.take counter) with
        | none => none
        | some data => some (counter, some data, fd)

/-! ## processing.c -/

/-- The loop of `plain_to_infusion`; the cursor `line + counter` is the suffix
still to scan.  Returns the infusion buffer and `infusion_counter`. -/
def plain_to_infusion_loop : List Byte → Buf → Nat → Option (Buf × Nat)
  | [], _, _ => none
  | c :: rest, infusion, infusion_counter =>
    if c ≠ NL then
      if !isdigit c then
        match store infusion infusion_counter c with
        | none => none
        | some infusion1 => plain_to_infusion_loop rest infusion1 (infusion_counter + 1)
      else plain_to_infusion_loop rest infusion infusion_counter
    else some (infusion, infusion_counter)

/-- The function `plain_to_infusion`.  Returns the infusion buffer and
`*size`. -/
def plain_to_infusion (line : List Byte) (num : Nat) : Option (Buf × Nat) :=
  plain_to_infusion_loop line (malloc num) 0

/-- The decimal value of a string of digit characters. -/
def decimal (ds : List Byte) : Nat := ds.foldl (fun acc d => 10 * acc + (d.val - 48)) 0

/-- The C library `strtol(nptr, &endptr, 10)`: skips white space, reads an
optional sign and the longest run of digits, and clamps the value to the range
of `long`.  Without a digit nothing is converted and `endptr` is `nptr`.
Returns the value and `endptr`; a fault when the scan leaves the buffer. -/
def strtol (nptr : List Byte) : Option (Int × List Byte) :=
  let s1 := nptr.dropWhile isspace
  let signed : Bool × List Byte :=
    match s1 with
    | c :: rest => if c.val = 45 then (true, rest) else if c.val = 43 then (false, rest) else (false, s1)
    | [] => (false, s1)
  let ds := signed.2.takeWhile isdigit
  let endptr := signed.2.dropWhile isdigit
  if endptr = [] then none
  else if ds = [] then some (0, nptr)
  else if signed.1 then some (max (-(decimal ds : Int)) LONG_MIN, endptr)
  else some (min (decimal ds : Int) LONG_MAX, endptr)

/-- The function `get_digits`.  Returns the digits as an `int` and the new
`*remaining_p`; the failed assertion `temp != *remaining_p` is a fault.  The
two pointers point into the same line, so they differ exactly when the
suffixes they start differ in length. -/
def get_digits (remaining : List Byte) : Option (Int × List Byte) :=
  match strtol remaining with
  | none => none
  | some (v, temp) =>
    let digits := toInt32 v
    if temp.length ≠ remaining.length then some (digits, temp) else none

/-- The function `find_digit`.  Returns the new `*remaining_p`. -/
def find_digit : List Byte → Option (List Byte)
  | [] => none
  | c :: rest =>
    if !isdigit c then
      match rest with
      | [] => none
      | d :: rest1 => if d = NL then some (d :: rest1) else find_digit (d :: rest1)
    else some (c :: rest)

/-- The loop of `plain_to_raw`.  Returns the row buffer and `*width`. -/
def plain_to_raw_loop : Nat → List Byte → Buf → Nat → Nat → Option (Buf × Nat)
  | 0, _, _, _, _ => none
  | _ + 1, [], _, _, _ => none
  | fuel + 1, c :: rest, new_line, raw_counter, width =>
    if c ≠ NL then
      match find_digit (c :: rest) with
      | none => none
      | some [] => none
      | some (d :: rest1) =>
        if d = NL then some (new_line, width)
        else
          match get_digits (d :: rest1) with
          | none => none
          | some (digits, remaining) =>
            match store new_line raw_counter (toChar digits) with
            | none => none
            | some new_line1 =>
              plain_to_raw_loop fuel remaining new_line1 (raw_counter + 1) (raw_counter + 1)
    else some (new_line, width)

/-- The function `plain_to_raw`; `width` is the value of `*width` at the call.
Returns the row buffer and `*width` at the return. -/
def plain_to_raw (line : List Byte) (num : Nat) (width : Nat) : Option (Buf × Nat) :=
  plain_to_raw_loop (line.length + 1) line (malloc num) 0 width

/-! ## Hanson's atoms, tables and lists -/

/-- Modelled from the spec: an interned signature (`atom.h` is not part of the
sources).  Two atoms are the same pointer exactly when they hold the same
bytes, so an atom is represented by its bytes. -/
abbrev Atom := List Byte

/-- Modelled from the spec: `Atom_new(str, len)` interns the first `len` bytes
of `str` (`atom.h` is not part of the sources). -/
def Atom_new (str : Buf) (len : Nat) : Option Atom :=
  if len ≤ str.length then initialized (str.take len) else none

/-- Modelled from the spec: the signature table (`table.h` is not part of the
sources), a list of (key, value) pairs with unique keys. -/
abbrev Table := List (Atom × List Byte)

/-- Modelled from the spec: `Table_get` yields the value stored under the key,
`none` (for `NULL`) when there is none (`table.h` is not part of the sources). -/
def Table_get (table : Table) (key : Atom) : Option (List Byte) :=
  match table with
  | [] => none
  | (k, v) :: rest => if k = key then some v else Table_get rest key

/-- Modelled from the spec: `Table_put` stores the value under the key and
yields the value it displaces, `none` (for `NULL`) when the key is new
(`table.h` is not part of the sources).  Returns the table and that value. -/
def Table_put (table : Table) (key : Atom) (value : List Byte) : Table × Option (List Byte) :=
  match Table_get table key with
  | some previous =>
    (table.map (fun e => if e.1 = key then (key, value) else e), some previous)
  | none => ((key, value) :: table, none)

/-! ## restoration.c

A `List_T` is the list of its elements from the front: `List_push` is `::`,
`List_pop` removes the head. -/

/-- The function `get_atom`. -/
def get_atom (line : List Byte) (num : Nat) : Option Atom :=
  match plain_to_infusion line num with
  | none => none
  | some (infusion, atom_size) => Atom_new infusion atom_size

/-- The function `add_duplicates`; `NULL` for `original_repeat` is `none`.
Returns the return value, `*width` and `*my_list`. -/
def add_duplicates (original_repeat : Option (List Byte)) (num width : Nat) (my_table : Table)
    (my_list : List Buf) (infusion_atom : Atom) : Option (Bool × Nat × List Buf) :=
  match original_repeat with
  | some original =>
    match plain_to_raw original num width with
    | none => none
    | some (original_raw, width1) =>
      match Table_get my_table infusion_atom with
      | none => none
      | some second_repeat =>
        match plain_to_raw second_repeat num width1 with
        | none => none
        | some (second_raw, width2) => some (true, width2, second_raw :: original_raw :: my_list)
  | none => some (false, width, my_list)

/-- The loop of `add_list`.  Returns `*num`, `*my_list`, the stream and
`*width` when the loop ends, which it does with `*line` being `NULL`. -/
def add_list : Nat → Option (List Byte) → Nat → List Buf → Atom → List Byte → Nat →
    Option (Nat × List Buf × List Byte × Nat)
  | 0, _, _, _, _, _, _ => none
  | _ + 1, none, num, my_list, _, fp, width => some (num, my_list, fp, width)
  | fuel + 1, some line, num, my_list, infusion_atom, fp, width =>
    match get_atom line num with
    | none => none
    | some new_infusion_atom =>
      let pushed : Option (List Buf × Nat) :=
        if new_infusion_atom = infusion_atom then
          match plain_to_raw line num width with
          | none => none
          | some (repeat_raw, width1) => some (repeat_raw :: my_list, width1)
        else some (my_list, width)
      match pushed with
      | none => none
      | some (my_list1, width1) =>
        match readaline fp with
        | none => none
        | some (num1, line1, fp1) => add_list fuel line1 num1 my_list1 infusion_atom fp1 width1

/-- The conversion `%d` of `printf` for a number that is not negative. -/
def printf_d (n : Nat) : List Byte := (Nat.toDigits 10 n).map (fun ch => Fin.ofNat ch.toNat)

/-- The loop `for (int i = 0; i < width; i++) printf("%c", popped_line[i])`,
from index `i` with `n` iterations left.  Returns the bytes written. -/
def print_row_from (popped_line : Buf) : Nat → Nat → Option (List (Option Byte))
  | 0, _ => some []
  | n + 1, i =>
    match load popped_line i with
    | none => none
    | some c => (print_row_from popped_line n (i + 1)).map (fun cs => c :: cs)

/-- The loop of `print_image` that pops the rows off the front of the list and
prints them.  Returns the bytes written. -/
def print_rows : List Buf → Nat → Option (List (Option Byte))
  | [], _ => some []
  | popped_line :: rest, width =>
    match print_row_from popped_line width 0 with
    | none => none
    | some cs => (print_rows rest width).map (fun more => cs ++ more)

/-- The header `"P5\n%d %d\n%d\n"` printed with width, height and `MAXVAL`. -/
def header (width height : Nat) : List Byte :=
  [80, 53, 10] ++ printf_d width ++ [32] ++ printf_d height ++ [10] ++ printf_d 255 ++ [10]

/-- The function `print_image`.  Returns the bytes written and `*my_list` at
the return. -/
def print_image (my_list : List Buf) (width : Nat) : Option (List (Option Byte) × List Buf) :=
  let height := my_list.length
  match print_rows my_list.reverse width with
  | none => none
  | some body => some ((header width height).map some ++ body, [])

/-- What a run of `restoration` leaves behind: the bytes written to standard
output, and the arguments (row list and width) of each call of `print_image`,
in the order of the calls. -/
structure Output where
  stdout : List (Option Byte)
  images : List (List Buf × Nat)
deriving DecidableEq

/-- The loop of `restoration`. -/
def restoration_loop : Nat → Option (List Byte) → Nat → Nat → Table → List Buf → List Byte →
    Output → Option Output
  | 0, _, _, _, _, _, _, _ => none
  | _ + 1, none, _, _, _, _, _, out => some out
  | fuel + 1, some line, num, width, my_table, my_list, fp, out =>
    match get_atom line num with
    | none => none
    | some inf_atom =>
      let put := Table_put my_table inf_atom line
      match add_duplicates put.2 num width put.1 my_list inf_atom with
      | none => none
      | some (true, width1, my_list1) =>
        match readaline fp with
        | none => none
        | some (num1, line1, fp1) =>
          match add_list (fp1.length + 2) line1 num1 my_list1 inf_atom fp1 width1 with
          | none => none
          | some (_, my_list2, fp2, width2) =>
            match print_image my_list2 width2 with
            | none => none
            | some (printed, my_list3) =>
              match readaline fp2 with
              | none => none
              | some (num3, line3, fp3) =>
                restoration_loop fuel line3 num3 width2 put.1 my_list3 fp3
                  ⟨out.stdout ++ printed, out.images ++ [(my_list2, width2)]⟩
      | some (false, width1, my_list1) =>
        match readaline fp with
        | none => none
        | some (num1, line1, fp1) =>
          restoration_loop fuel line1 num1 width1 put.1 my_list1 fp1 out

/-- The function `restoration` on the stream `fp`. -/
def restoration (fp : List Byte) : Option Output :=
  match readaline fp with
  | none => none
  | some (num, line, fp1) => restoration_loop (fp.length + 2) line num 0 [] [] fp1 ⟨[], []⟩

/-! ## What the specification says about a line

The specification speaks of the bytes of a line before its terminator. -/

/-- The signature of a line: its bytes that are not ASCII digits, in order. -/
def signature (body : List Byte) : List Byte := body.filter (fun c => !isdigit c)

/-- The maximal runs of ASCII digits of a line, from left to right: the line is
cut at every byte that is not a digit and the empty pieces are dropped. -/
def digitRuns (body : List Byte) : List (List Byte) :=
  (body.splitOnP (fun c => !isdigit c)).filter (fun r => !r.isEmpty)

/-- The byte that the casts of the source make of a digit run: its decimal
value clamped to `long`, narrowed to `int` and then to `char`. -/
def pixel (run : List Byte) : Byte := toChar (toInt32 (min (decimal run : Int) LONG_MAX))

/-- The decoded row of a line: one byte for each digit run. -/
def decodeRow (body : List Byte) : List Byte := (digitRuns body).map pixel

/-- The stream made of the given lines, each followed by its newline. -/
def streamOf : List (List Byte) → List Byte
  | [] => []
  | l :: ls => l ++ NL :: streamOf ls

/-- The lines of a list that carry the signature `S`, in order. -/
def genuine (S : List Byte) (ls : List (List Byte)) : List (List Byte) :=
  ls.filter (fun l => decide (signature l = S))

/-- The row buffer that decoding a line into `num` bytes leaves: the decoded
row, then bytes that were never written. -/
def rowBuf (l : List Byte) (num : Nat) : Buf :=
  (decodeRow l).map some ++ malloc (num - (digitRuns l).length)

/-- The width variable after a line was decoded: the number of its digit runs,
and the old value when the line has no digit run. -/
def newWidth (l : List Byte) (width : Nat) : Nat :=
  if (digitRuns l).length = 0 then width else (digitRuns l).length

/-- The width variable after the lines of a list were decoded in order. -/
def widthAfter (ls : List (List Byte)) (width : Nat) : Nat :=
  ls.foldl (fun w l => newWidth l w) width

/-- The row list after the collecting loop went over the given lines. -/
def pushRows (S : List Byte) (ls : List (List Byte)) (my_list : List Buf) : List Buf :=
  ls.foldl (fun acc l => if signature l = S then rowBuf l (l.length + 1) :: acc else acc) my_list

/-- The first `width` bytes of each row of a list, one row after the other. -/
def rowsBytes (width : Nat) : List Buf → List (Option Byte)
  | [] => []
  | row :: rows => row.take width ++ rowsBytes width rows

/-- The table after the scanning phase stored the given lines, the last one
stored first in the list. -/
def tableOf (seen : List (List Byte)) : Table :=
  seen.map (fun l => (signature l, l ++ [NL]))

/-- The row list at the call of `print_image` when the line `lj` repeats the
signature of the earlier line `orig` and the lines `post` follow. -/
def imageRows (orig lj : List Byte) (post : List (List Byte)) : List Buf :=
  pushRows (signature lj) post [rowBuf lj (lj.length + 1), rowBuf orig (lj.length + 1)]

/-- The width at the call of `print_image` in the same situation. -/
def imageWidth (orig lj : List Byte) (post : List (List Byte)) : Nat :=
  widthAfter (orig :: lj :: genuine (signature lj) post) 0

/-- The bytes at the start of a buffer that were written. -/
def written : Buf → List Byte
  | some c :: rest => c :: written rest
  | _ => []

/-- The decimal values of the digit runs of a line, from left to right. -/
def rowValues (body : List Byte) : List Nat := (digitRuns body).map decimal

/-- A number of successive calls of `readaline` on a stream.  Returns the
return value and `*datapp` of each call, in order, and the stream after the
last call. -/
def read_calls : Nat → List Byte → Option (List (Nat × Option (List Byte)) × List Byte)
  | 0, fp => some ([], fp)
  | n + 1, fp =>
    match readaline fp with
    | none => none
    | some (num, line, fp1) => (read_calls n fp1).map (fun r => ((num, line) :: r.1, r.2))

/-- The body of the loop of `read_through`, run once from the given values of
`*c_int`, `*counter`, `init_cap`, `*line_p` and the stream.  Returns their
values after the body. -/
def read_through_body (c_int : Int) (counter init_cap : Nat) (line : Buf)
    (inputfd : List Byte) : Option (Int × Nat × Nat × Buf × List Byte) :=
  let grown := if counter = init_cap - 1 then expand line init_cap else (line, init_cap)
  match store grown.1 (counter - 1) (toChar c_int) with
  | none => none
  | some line1 =>
    let r := get_char inputfd counter
    some (r.1, r.2.2, grown.2, line1, r.2.1)

/-- The loop of `read_through` stopped after at most `i` runs of its body:
the values of `*c_int`, `*counter`, `init_cap`, `*line_p` and the stream at
that point, which is the exit of the loop when it ended earlier. -/
def read_through_iter : Nat → Int → Nat → Nat → Buf → List Byte →
    Option (Int × Nat × Nat × Buf × List Byte)
  | 0, c_int, counter, init_cap, line, inputfd => some (c_int, counter, init_cap, line, inputfd)
  | i + 1, c_int, counter, init_cap, line, inputfd =>
    if toChar c_int ≠ NL ∧ c_int ≠ -1 then
      match read_through_body c_int counter init_cap line inputfd with
      | none => none
      | some (c1, counter1, cap1, line1, fd1) => read_through_iter i c1 counter1 cap1 line1 fd1
    else some (c_int, counter, init_cap, line, inputfd)

/-- The state of the loop of `read_through` in the call of `readaline` on the
stream `inputfd`, after at most `i` runs of its body. -/
def readaline_state (inputfd : List Byte) (i : Nat) :
    Option (Int × Nat × Nat × Buf × List Byte) :=
  let r := get_char inputfd 0
  read_through_iter i r.1 r.2.2 1000 (malloc 1000) r.2.1

/-! ## The decoder with a record of its calls of get_digits -/

/-- The loop of `plain_to_raw` with a record of its calls of `get_digits`:
for each call, the cursor `remaining` at the call and the cursor after it.
Returns the row buffer, `*width` and the record. -/
def plain_to_raw_traced : Nat → List Byte → Buf → Nat → Nat →
    Option (Buf × Nat × List (List Byte × List Byte))
  | 0, _, _, _, _ => none
  | _ + 1, [], _, _, _ => none
  | fuel + 1, c :: rest, new_line, raw_counter, width =>
    if c ≠ NL then
      match find_digit (c :: rest) with
      | none => none
      | some [] => none
      | some (d :: rest1) =>
        if d = NL then some (new_line, width, [])
        else
          match get_digits (d :: rest1) with
          | none => none
          | some (digits, remaining) =>
            match store new_line raw_counter (toChar digits) with
            | none => none
            | some new_line1 =>
              (plain_to_raw_traced fuel remaining new_line1 (raw_counter + 1) (raw_counter + 1)).map
                (fun r => (r.1, r.2.1, (d :: rest1, remaining) :: r.2.2))
    else some (new_line, width, [])

/-- What holds at a call of `get_digits` in a line that ends with a newline
followed by `rest`: the cursor is on a digit run `run` that is not empty,
followed by bytes `aft` of the line and the newline; `aft` is empty or starts
with a byte that is no digit; the call succeeds and leaves the cursor on the
first byte after the run. -/
def GoodCall (rest : List Byte) (call : List Byte × List Byte) : Prop :=
  ∃ (run aft : List Byte) (digits : Int),
    call.1 = run ++ (aft ++ NL :: rest) ∧ call.2 = aft ++ NL :: rest ∧
    run ≠ [] ∧ (∀ d ∈ run, isdigit d = true) ∧ (∀ x ∈ aft, x ≠ NL) ∧
    (∀ x ∈ aft.head?, isdigit x = false) ∧
    get_digits call.1 = some (digits, call.2)

/-! ## processing.c and restoration.c with the counters of type int bounded

`plain_to_infusion` and `plain_to_raw` index their buffers with counters of
type `int`, which the definitions above take as natural numbers.  The
definitions of this section are the same functions with every increment of
such a counter checked: an increment at `INT_MAX` is a signed overflow, which
is undefined behaviour, and makes the computation `none`.  The statements on
the range of the indices are about these definitions. -/

/-- The largest value of an `int`. -/
def INT_MAX : Nat := 2147483647

/-- The increment `i++` of an `int`: at `INT_MAX` it is a signed overflow,
which is undefined behaviour and a fault. -/
def int_incr (i : Nat) : Option Nat := if i < INT_MAX then some (i + 1) else none

/-- The loop of `plain_to_infusion` with its counters of type `int` bounded:
`infusion_counter`, the index into `infusion`, and `counter`, the index into
`line`; the cursor `line + counter` is still the suffix left to scan.  Returns
the infusion buffer and `infusion_counter`. -/
def plain_to_infusion_int_loop : List Byte → Buf → Nat → Nat → Option (Buf × Nat)
  | [], _, _, _ => none
  | c :: rest, infusion, infusion_counter, counter =>
    if c ≠ NL then
      if !isdigit c then
        match store infusion infusion_counter c with
        | none => none
        | some infusion1 =>
          match int_incr infusion_counter with
          | none => none
          | some infusion_counter1 =>
            match int_incr counter with
            | none => none
            | some counter1 => plain_to_infusion_int_loop rest infusion1 infusion_counter1 counter1
      else
        match int_incr counter with
        | none => none
        | some counter1 => plain_to_infusion_int_loop rest infusion infusion_counter counter1
    else some (infusion, infusion_counter)

/-- The function `plain_to_infusion` with its counters of type `int` bounded.
Returns the infusion buffer and `*size`. -/
def plain_to_infusion_int (line : List Byte) (num : Nat) : Option (Buf × Nat) :=
  plain_to_infusion_int_loop line (malloc num) 0 0

/-- The loop of `plain_to_raw` with its counter `raw_counter`, of type `int`,
bounded.  Returns the row buffer and `*width`. -/
def plain_to_raw_int_loop : Nat → List Byte → Buf → Nat → Nat → Option (Buf × Nat)
  | 0, _, _, _, _ => none
  | _ + 1, [], _, _, _ => none
  | fuel + 1, c :: rest, new_line, raw_counter, width =>
    if c ≠ NL then
      match find_digit (c :: rest) with
      | none => none
      | some [] => none
      | some (d :: rest1) =>
        if d = NL then some (new_line, width)
        else
          match get_digits (d :: rest1) with
          | none => none
          | some (digits, remaining) =>
            match store new_line raw_counter (toChar digits) with
            | none => none
            | some new_line1 =>
              match int_incr raw_counter with
              | none => none
              | some raw_counter1 =>
                plain_to_raw_int_loop fuel remaining new_line1 raw_counter1 raw_counter1
    else some (new_line, width)

/-- The function `plain_to_raw` with its counter of type `int` bounded; `width` is
the value of `*width` at the call.  Returns the row buffer and `*width` at the
return. -/
def plain_to_raw_int (line : List Byte) (num : Nat) (width : Nat) : Option (Buf × Nat) :=
  plain_to_raw_int_loop (line.length + 1) line (malloc num) 0 width

/-- The function `get_atom`, with the counters of `plain_to_infusion` bounded. -/
def get_atom_int (line : List Byte) (num : Nat) : Option Atom :=
  match plain_to_infusion_int line num with
  | none => none
  | some (infusion, atom_size) => Atom_new infusion atom_size

/-- The function `add_duplicates`, with the counter of `plain_to_raw` bounded.
Returns the return value, `*width` and `*my_list`. -/
def add_duplicates_int (original_repeat : Option (List Byte)) (num width : Nat) (my_table : Table)
    (my_list : List Buf) (infusion_atom : Atom) : Option (Bool × Nat × List Buf) :=
  match original_repeat with
  | some original =>
    match plain_to_raw_int original num width with
    | none => none
    | some (original_raw, width1) =>
      match Table_get my_table infusion_atom with
      | none => none
      | some second_repeat =>
        match plain_to_raw_int second_repeat num width1 with
        | none => none
        | some (second_raw, width2) => some (true, width2, second_raw :: original_raw :: my_list)
  | none => some (false, width, my_list)

/-- The loop of `add_list`, with the counters of `plain_to_infusion` and
`plain_to_raw` bounded.  Returns `*num`, `*my_list`, the stream and `*width`
when the loop ends. -/
def add_list_int : Nat → Option (List Byte) → Nat → List Buf → Atom → List Byte → Nat →
    Option (Nat × List Buf × List Byte × Nat)
  | 0, _, _, _, _, _, _ => none
  | _ + 1, none, num, my_list, _, fp, width => some (num, my_list, fp, width)
  | fuel + 1, some line, num, my_list, infusion_atom, fp, width =>
    match get_atom_int line num with
    | none => none
    | some new_infusion_atom =>
      let pushed : Option (List Buf × Nat) :=
        if new_infusion_atom = infusion_atom then
          match plain_to_raw_int line num width with
          | none => none
          | some (repeat_raw, width1) => some (repeat_raw :: my_list, width1)
        else some (my_list, width)
      match pushed with
      | none => none
      | some (my_list1, width1) =>
        match readaline fp with
        | none => none
        | some (num1, line1, fp1) => add_list_int fuel line1 num1 my_list1 infusion_atom fp1 width1

/-- The loop of `restoration`, with the counters of `plain_to_infusion` and
`plain_to_raw` bounded. -/
def restoration_loop_int : Nat → Option (List Byte) → Nat → Nat → Table → List Buf → List Byte →
    Output → Option Output
  | 0, _, _, _, _, _, _, _ => none
  | _ + 1, none, _, _, _, _, _, out => some out
  | fuel + 1, some line, num, width, my_table, my_list, fp, out =>
    match get_atom_int line num with
    | none => none
    | some inf_atom =>
      let put := Table_put my_table inf_atom line
      match add_duplicates_int put.2 num width put.1 my_list inf_atom with
      | none => none
      | some (true, width1, my_list1) =>
        match readaline fp with
        | none => none
        | some (num1, line1, fp1) =>
          match add_list_int (fp1.length + 2) line1 num1 my_list1 inf_atom fp1 width1 with
          | none => none
          | some (_, my_list2, fp2, width2) =>
            match print_image my_list2 width2 with
            | none => none
            | some (printed, my_list3) =>
              match readaline fp2 with
              | none => none
              | some (num3, line3, fp3) =>
                restoration_loop_int fuel line3 num3 width2 put.1 my_list3 fp3
                  ⟨out.stdout ++ printed, out.images ++ [(my_list2, width2)]⟩
      | some (false, width1, my_list1) =>
        match readaline fp with
        | none => none
        | some (num1, line1, fp1) =>
          restoration_loop_int fuel line1 num1 width1 put.1 my_list1 fp1 out

/-- The function `restoration` on the stream `fp`, with the counters of type
`int` of `plain_to_infusion` and `plain_to_raw` bounded. -/
def restoration_int (fp : List Byte) : Option Output :=
  match readaline fp with
  | none => none
  | some (num, line, fp1) => restoration_loop_int (fp.length + 2) line num 0 [] [] fp1 ⟨[], []⟩

/-- A stream of newline-terminated lines that have at most `INT_MAX` bytes before
the newline, followed by bytes without a newline. -/
def ShortLines (fp : List Byte) : Prop :=
  ∃ (ls : List (List Byte)) (tail : List Byte), fp = streamOf ls ++ tail ∧
    (∀ l ∈ ls, (∀ x ∈ l, x ≠ NL) ∧ l.length ≤ INT_MAX) ∧ ∀ x ∈ tail, x ≠ NL

/-! ## plain_to_raw on a heap

In the definitions above a line is passed as the list of its bytes.  For the
statement that `plain_to_raw` writes no byte of its input line, the function
is embedded once more with the memory explicit: the line and the row are
blocks of a heap, and every read of the line is a read of the heap as it is at
that moment. -/

/-- The heap: the blocks that `malloc` returned so far, in the order of the
calls; a pointer is the index of its block and an offset into it. -/
abbrev Heap := List Buf

/-- The call `malloc(n)` on a heap.  Returns the heap with the new block and
the index of that block. -/
def heap_malloc (heap : Heap) (n : Nat) : Heap × Nat := (heap ++ [malloc n], heap.length)

/-- The assignment `p[i] = c` for a pointer `p` to the start of a block; a
fault when there is no such block or `i` is outside it. -/
def heap_store (heap : Heap) (block i : Nat) (c : Byte) : Option Heap :=
  match heap[block]? with
  | none => none
  | some buf =>
    match store buf i c with
    | none => none
    | some buf1 => some (heap.set block buf1)

/-- The bytes that can be read through a pointer into a block: the written
bytes from the offset on. -/
def heap_cursor (heap : Heap) (block offset : Nat) : Option (List Byte) :=
  match heap[block]? with
  | none => none
  | some buf => if offset ≤ buf.length then some (written (buf.drop offset)) else none

/-- The loop of `plain_to_raw` on a heap: `line` is the block of the line,
`offset` the offset of the cursor `remaining` in it, `new_line` the block of
the row.  Every read of the line is a read of the heap as it is at that
moment.  Returns the heap and `*width`. -/
def plain_to_raw_heap_loop : Nat → Heap → Nat → Nat → Nat → Nat → Nat → Option (Heap × Nat)
  | 0, _, _, _, _, _, _ => none
  | fuel + 1, heap, line, offset, new_line, raw_counter, width =>
    match heap_cursor heap line offset with
    | none => none
    | some [] => none
    | some (c :: rest) =>
      if c ≠ NL then
        match find_digit (c :: rest) with
        | none => none
        | some [] => none
        | some (d :: rest1) =>
          if d = NL then some (heap, width)
          else
            match get_digits (d :: rest1) with
            | none => none
            | some (digits, remaining) =>
              match heap_store heap new_line raw_counter (toChar digits) with
              | none => none
              | some heap1 =>
                plain_to_raw_heap_loop fuel heap1 line
                  (offset + ((c :: rest).length - remaining.length)) new_line
                  (raw_counter + 1) (raw_counter + 1)
      else some (heap, width)

/-- The function `plain_to_raw` on a heap, called with a pointer to the start
of the block `line`.  Returns the heap at the return, the block of the row
returned and `*width`. -/
def plain_to_raw_heap (heap : Heap) (line num width : Nat) : Option (Heap × Nat × Nat) :=
  match heap[line]? with
  | none => none
  | some buf =>
    let a := heap_malloc heap num
    match plain_to_raw_heap_loop (buf.length + 1) a.1 line 0 a.2 0 width with
    | none => none
    | some (heap1, width1) => some (heap1, a.2, width1)

/-! ## Lemmas on buffers -/

theorem toChar_val (c : Byte) : toChar (c.val : Int) = c := by
  apply Fin.ext
  have h := c.isLt
  simp only [toChar, Fin.ofNat, Fin.val_mk]
  omega

theorem malloc_length (n : Nat) : (malloc n).length = n := by simp [malloc]

theorem malloc_succ (n : Nat) : malloc (n + 1) = none :: malloc n := by
  simp [malloc, List.replicate_succ]

theorem store_at (pre tail : Buf) (x : Option Byte) (c : Byte) :
    store (pre ++ x :: tail) pre.length c = some (pre ++ some c :: tail) := by
  simp [store]

theorem initialized_map_some (cs : List Byte) : initialized (cs.map some) = some cs := by
  induction cs with
  | nil => rfl
  | cons c cs ih => simp [initialized, ih]

theorem exists_cons_of_length_pos (tail : Buf) (h : 1 ≤ tail.length) :
    ∃ x tail1, tail = x :: tail1 := by
  cases tail with
  | nil => simp at h
  | cons x tail1 => exact ⟨x, tail1, rfl⟩

/-! ## readaline reads one line -/

theorem read_through_exit (fuel : Nat) (cend : Int) (hexit : ¬ (toChar cend ≠ NL ∧ cend ≠ -1))
    (counter cap : Nat) (line : Buf) (fd : List Byte) :
    read_through (fuel + 1) cend counter cap line fd = some (cend, counter, cap, line, fd) := by
  rw [read_through, if_neg hexit]

theorem read_through_line (stop rest : List Byte) (cend : Int)
    (hend : ∀ k, get_char stop k = (cend, rest, k + 1))
    (hexit : ¬ (toChar cend ≠ NL ∧ cend ≠ -1)) (todo : List Byte) :
    ∀ (fuel : Nat) (c : Byte) (pre : List Byte) (tail : Buf),
      c ≠ NL → (∀ x ∈ todo, x ≠ NL) → 2 ≤ tail.length → todo.length + 2 ≤ fuel →
      ∃ tail1 : Buf, 2 ≤ tail1.length ∧
        read_through fuel (c.val : Int) (pre.length + 1) (pre.length + tail.length)
            (pre.map some ++ tail) (todo ++ stop)
          = some (cend, pre.length + todo.length + 2,
              pre.length + todo.length + 1 + tail1.length,
              (pre ++ c :: todo).map some ++ tail1, rest) := by
  induction todo with
  | nil =>
    intro fuel c pre tail hc _ htail hfuel
    obtain ⟨fuel, rfl⟩ : ∃ f, fuel = f + 2 := ⟨fuel - 2, by simp at hfuel; omega⟩
    obtain ⟨x, tail0, rfl⟩ := exists_cons_of_length_pos tail (by omega)
    have hcv : (c.val : Int) ≠ -1 := by omega
    by_cases hgrow : pre.length + 1 = pre.length + (x :: tail0).length - 1
    · refine ⟨tail0 ++ malloc (pre.length + (x :: tail0).length), ?_, ?_⟩
      · simp [malloc]; simp at htail; omega
      · rw [read_through]
        simp only [toChar_val, hc, hcv, ne_eq, not_false_eq_true, and_self, if_true, hgrow,
          expand, realloc]
        have hlen : (pre.map some ++ x :: tail0).length = pre.length + (x :: tail0).length := by
          simp
        have e1 : ((pre.map some ++ x :: tail0) ++
            malloc ((pre.length + (x :: tail0).length) * 2 - (pre.map some ++ x :: tail0).length)).take
              ((pre.length + (x :: tail0).length) * 2)
            = pre.map some ++ x :: (tail0 ++ malloc (pre.length + (x :: tail0).length)) := by
          rw [List.take_of_length_le]
          · rw [hlen]
            have : (pre.length + (x :: tail0).length) * 2 - (pre.length + (x :: tail0).length)
                = pre.length + (x :: tail0).length := by omega
            rw [this]; simp
          · simp [malloc]; omega
        rw [e1]
        have e2 : pre.length + (x :: tail0).length - 1 - 1 = (pre.map some).length := by
          simp; simp at hgrow; omega
        rw [e2, store_at]
        simp only [List.nil_append, hend]
        rw [read_through_exit _ _ hexit]
        simp [malloc]
        simp at hgrow htail
        omega
    · refine ⟨tail0, ?_, ?_⟩
      · simp at hgrow htail; omega
      · rw [read_through]
        simp only [toChar_val, hc, hcv, ne_eq, not_false_eq_true, and_self, if_true, hgrow,
          if_false]
        have e2 : pre.length + 1 - 1 = (pre.map some).length := by simp
        rw [e2, store_at]
        simp only [List.nil_append, hend]
        rw [read_through_exit _ _ hexit]
        simp
        omega
  | cons d todo ih =>
    intro fuel c pre tail hc htodo htail hfuel
    obtain ⟨fuel, rfl⟩ : ∃ f, fuel = f + 1 := ⟨fuel - 1, by simp at hfuel; omega⟩
    obtain ⟨x, tail0, rfl⟩ := exists_cons_of_length_pos tail (by omega)
    have hcv : (c.val : Int) ≠ -1 := by omega
    have hd : d ≠ NL := htodo d (by simp)
    have htodo1 : ∀ y ∈ todo, y ≠ NL := fun y hy => htodo y (by simp [hy])
    by_cases hgrow : pre.length + 1 = pre.length + (x :: tail0).length - 1
    · have htl : 2 ≤ (tail0 ++ malloc (pre.length + (x :: tail0).length)).length := by
        simp [malloc]; simp at htail; omega
      obtain ⟨tail1, h1, h2⟩ := ih fuel d (pre ++ [c]) _ hd htodo1 htl (by simp at hfuel ⊢; omega)
      refine ⟨tail1, h1, ?_⟩
      rw [read_through]
      simp only [toChar_val, hc, hcv, ne_eq, not_false_eq_true, and_self, if_true, hgrow,
        expand, realloc]
      have hlen : (pre.map some ++ x :: tail0).length = pre.length + (x :: tail0).length := by
        simp
      have e1 : ((pre.map some ++ x :: tail0) ++
          malloc ((pre.length + (x :: tail0).length) * 2 - (pre.map some ++ x :: tail0).length)).take
            ((pre.length + (x :: tail0).length) * 2)
          = pre.map some ++ x :: (tail0 ++ malloc (pre.length + (x :: tail0).length)) := by
        rw [List.take_of_length_le]
        · rw [hlen]
          have : (pre.length + (x :: tail0).length) * 2 - (pre.length + (x :: tail0).length)
              = pre.length + (x :: tail0).length := by omega
          rw [this]; simp
        · simp [malloc]; omega
      rw [e1]
      have e2 : pre.length + (x :: tail0).length - 1 - 1 = (pre.map some).length := by
        simp; simp at hgrow; omega
      rw [e2, store_at]
      simp only [get_char, List.cons_append]
      have e3 : (pre.length + (x :: tail0).length - 1 + 1) = (pre ++ [c]).length + 1 := by
        simp; simp at hgrow; omega
      have e4 : (pre.length + (x :: tail0).length) * 2
          = (pre ++ [c]).length + (tail0 ++ malloc (pre.length + (x :: tail0).length)).length := by
        simp [malloc]; omega
      have e5 : pre.map some ++ some c :: (tail0 ++ malloc (pre.length + (x :: tail0).length))
          = (pre ++ [c]).map some ++ (tail0 ++ malloc (pre.length + (x :: tail0).length)) := by
        simp
      rw [e3, e4, e5, h2]
      simp
      omega
    · have htl : 2 ≤ tail0.length := by simp at hgrow htail; omega
      obtain ⟨tail1, h1, h2⟩ := ih fuel d (pre ++ [c]) tail0 hd htodo1 htl (by simp at hfuel ⊢; omega)
      refine ⟨tail1, h1, ?_⟩
      rw [read_through]
      simp only [toChar_val, hc, hcv, ne_eq, not_false_eq_true, and_self, if_true, hgrow,
        if_false]
      have e2 : pre.length + 1 - 1 = (pre.map some).length := by simp
      rw [e2, store_at]
      simp only [get_char, List.cons_append]
      have e3 : pre.length + 1 + 1 = (pre ++ [c]).length + 1 := by simp
      have e4 : pre.length + (x :: tail0).length = (pre ++ [c]).length + tail0.length := by
        simp; omega
      have e5 : pre.map some ++ some c :: tail0 = (pre ++ [c]).map some ++ tail0 := by simp
      rw [e3, e4, e5, h2]
      simp
      omega

theorem read_through_start (stop rest : List Byte) (cend : Int)
    (hend : ∀ k, get_char stop k = (cend, rest, k + 1))
    (hexit : ¬ (toChar cend ≠ NL ∧ cend ≠ -1)) (todo : List Byte) (fuel : Nat) (c : Byte)
    (buf : Buf) (cap : Nat) (hcap : buf.length = cap)
    (hc : c ≠ NL) (htodo : ∀ x ∈ todo, x ≠ NL) (hbuf : 2 ≤ cap)
    (hfuel : todo.length + 2 ≤ fuel) :
    ∃ x tail2, read_through fuel (c.val : Int) 1 cap buf (todo ++ stop)
      = some (cend, todo.length + 2, todo.length + 1 + (x :: tail2 : Buf).length,
          (c :: todo).map some ++ x :: tail2, rest) := by
  subst hcap
  obtain ⟨tail1, h1, h2⟩ := read_through_line stop rest cend hend hexit todo fuel c [] buf hc
    htodo hbuf hfuel
  obtain ⟨x, tail2, rfl⟩ := exists_cons_of_length_pos tail1 (by omega)
  exact ⟨x, tail2, by simpa using h2⟩

theorem readaline_line (body rest : List Byte) (hbody : ∀ x ∈ body, x ≠ NL) :
    readaline (body ++ NL :: rest) = some (body.length + 1, some (body ++ [NL]), rest) := by
  have hend : ∀ k, get_char (NL :: rest) k = (((NL.val : Nat) : Int), rest, k + 1) := by
    intro k; rfl
  have hexit : ¬ (toChar ((NL.val : Nat) : Int) ≠ NL ∧ ((NL.val : Nat) : Int) ≠ -1) := by
    simp [toChar_val]
  cases body with
  | nil =>
    simp only [readaline, List.nil_append, hend, List.length_cons]
    rw [read_through_exit _ _ hexit]
    have hm : malloc 1000 = [] ++ none :: malloc 999 := malloc_succ 999
    have hs : store (malloc 1000) (0 + 1 - 1) NL = some ([] ++ some NL :: malloc 999) := by
      rw [hm]; exact store_at [] (malloc 999) none NL
    simp only [hs]
    simp [initialized, NL]
  | cons c todo =>
    have hc : c ≠ NL := hbody c (by simp)
    have htodo : ∀ y ∈ todo, y ≠ NL := fun y hy => hbody y (by simp [hy])
    obtain ⟨x, tail2, h2⟩ := read_through_start (NL :: rest) rest _ hend hexit todo
      ((c :: (todo ++ NL :: rest)).length + 1) c (malloc 1000) 1000 (malloc_length 1000) hc htodo
      (by omega) (by simp)
    simp only [readaline, List.cons_append, get_char, Nat.zero_add]
    rw [h2]
    have hs : store ((c :: todo).map some ++ x :: tail2) (todo.length + 2 - 1) NL
        = some ((c :: todo).map some ++ some NL :: tail2) := by
      have := store_at ((c :: todo).map some) tail2 x NL
      simpa using this
    simp only [hs]
    have ht : ((c :: todo).map some ++ some NL :: tail2).take (todo.length + 2)
        = (c :: todo ++ [NL]).map some := by
      have : todo.length + 2 = ((c :: todo).map some ++ [some NL]).length := by simp
      rw [this, show (c :: todo).map some ++ some NL :: tail2
          = ((c :: todo).map some ++ [some NL]) ++ tail2 from by simp, List.take_left]
      simp
    rw [ht, initialized_map_some]
    simp [NL]

theorem readaline_eof (tail : List Byte) (htail : ∀ x ∈ tail, x ≠ NL) :
    readaline tail = some (0, none, []) := by
  have hend : ∀ k, get_char [] k = (-1, [], k + 1) := by
    intro k; rfl
  have hexit : ¬ (toChar (-1) ≠ NL ∧ (-1 : Int) ≠ -1) := by simp
  cases tail with
  | nil =>
    simp only [readaline, hend, List.length_nil]
    rw [read_through_exit _ _ hexit]
    simp
  | cons c todo =>
    have hc : c ≠ NL := htail c (by simp)
    have htodo : ∀ y ∈ todo, y ≠ NL := fun y hy => htail y (by simp [hy])
    obtain ⟨x, tail2, h2⟩ := read_through_start [] [] _ hend hexit todo
      ((c :: todo).length + 1) c (malloc 1000) 1000 (malloc_length 1000) hc htodo
      (by omega) (by simp)
    simp only [List.append_nil] at h2
    simp only [readaline, get_char, Nat.zero_add]
    rw [h2]
    simp

/-! ## The signature extractor -/

theorem store_written (pre : List Byte) (tail : Buf) (c : Byte) (h : 1 ≤ tail.length) :
    store (pre.map some ++ tail) pre.length c = some ((pre ++ [c]).map some ++ tail.drop 1) := by
  obtain ⟨x, tail1, rfl⟩ := exists_cons_of_length_pos tail h
  have := store_at (pre.map some) tail1 x c
  simpa using this

theorem plain_to_infusion_loop_spec (rest body : List Byte) :
    ∀ (pre : List Byte) (tail : Buf), (∀ x ∈ body, x ≠ NL) →
      (signature body).length ≤ tail.length →
      plain_to_infusion_loop (body ++ NL :: rest) (pre.map some ++ tail) pre.length
        = some ((pre ++ signature body).map some ++ tail.drop (signature body).length,
            pre.length + (signature body).length) := by
  induction body with
  | nil =>
    intro pre tail _ _
    simp [plain_to_infusion_loop, signature]
  | cons c body ih =>
    intro pre tail hbody htail
    have hc : c ≠ NL := hbody c (by simp)
    have hbody1 : ∀ x ∈ body, x ≠ NL := fun x hx => hbody x (by simp [hx])
    by_cases hd : isdigit c = true
    · have hsig : signature (c :: body) = signature body := by simp [signature, hd]
      rw [hsig] at htail ⊢
      simp only [List.cons_append, plain_to_infusion_loop, hc, ne_eq, not_false_eq_true,
        if_true, hd, Bool.not_true, Bool.false_eq_true, if_false]
      exact ih pre tail hbody1 htail
    · have hd1 : isdigit c = false := by simpa using hd
      have hsig : signature (c :: body) = c :: signature body := by simp [signature, hd1]
      rw [hsig] at htail ⊢
      simp only [List.length_cons] at htail ⊢
      simp only [List.cons_append, plain_to_infusion_loop, hc, ne_eq, not_false_eq_true,
        if_true, hd1, Bool.not_false]
      rw [store_written pre tail c (by omega)]
      have := ih (pre ++ [c]) (tail.drop 1) hbody1 (by simp; omega)
      simp only [List.length_append, List.length_singleton] at this
      simp only [List.append_eq]
      rw [this]
      simp [Nat.add_comm, Nat.add_left_comm]
      omega

theorem plain_to_infusion_eq (body rest : List Byte) (num : Nat) (hbody : ∀ x ∈ body, x ≠ NL)
    (hnum : (signature body).length ≤ num) :
    plain_to_infusion (body ++ NL :: rest) num
      = some ((signature body).map some ++ malloc (num - (signature body).length),
          (signature body).length) := by
  have := plain_to_infusion_loop_spec rest body [] (malloc num) hbody
    (by rw [malloc_length]; exact hnum)
  simpa [plain_to_infusion, malloc] using this

theorem signature_length_le (body : List Byte) : (signature body).length ≤ body.length :=
  List.length_filter_le _ _

theorem get_atom_eq (body rest : List Byte) (num : Nat) (hbody : ∀ x ∈ body, x ≠ NL)
    (hnum : (signature body).length ≤ num) :
    get_atom (body ++ NL :: rest) num = some (signature body) := by
  simp only [get_atom, plain_to_infusion_eq body rest num hbody hnum, Atom_new]
  have ht : ((signature body).map some ++ malloc (num - (signature body).length)).take
      (signature body).length = (signature body).map some := by
    have : (signature body).length = ((signature body).map some).length := by simp
    rw [this, List.take_left]
  rw [ht, initialized_map_some]
  simp

/-! ## Digit runs -/

theorem isdigit_bounds (c : Byte) : isdigit c = true ↔ 48 ≤ c.val ∧ c.val ≤ 57 := by
  simp [isdigit]

theorem isdigit_ne_NL (c : Byte) (h : isdigit c = true) : c ≠ NL := by
  intro hc
  rw [hc] at h
  exact absurd h (by decide)

theorem isdigit_not_space (c : Byte) (h : isdigit c = true) : isspace c = false := by
  rw [isdigit_bounds] at h
  simp only [isspace, Bool.or_eq_false_iff, Bool.and_eq_false_imp, decide_eq_false_iff_not,
    decide_eq_true_eq]
  omega

theorem digitRuns_nil : digitRuns [] = [] := by
  simp [digitRuns, List.splitOnP_nil]

theorem digitRuns_cons_sep (x : Byte) (l : List Byte) (hx : isdigit x = false) :
    digitRuns (x :: l) = digitRuns l := by
  simp [digitRuns, List.splitOnP_cons, hx]

theorem digitRuns_seps (seps l : List Byte) (h : ∀ s ∈ seps, isdigit s = false) :
    digitRuns (seps ++ l) = digitRuns l := by
  induction seps with
  | nil => rfl
  | cons s seps ih =>
    rw [List.cons_append, digitRuns_cons_sep _ _ (h s (by simp))]
    exact ih (fun t ht => h t (by simp [ht]))

theorem digitRuns_all_seps (seps : List Byte) (h : ∀ s ∈ seps, isdigit s = false) :
    digitRuns seps = [] := by
  have := digitRuns_seps seps [] h
  rw [List.append_nil] at this
  rw [this, digitRuns_nil]

theorem digitRuns_run (ds after : List Byte) (hne : ds ≠ [])
    (hds : ∀ d ∈ ds, isdigit d = true) (hafter : ∀ x ∈ after.head?, isdigit x = false) :
    digitRuns (ds ++ after) = ds :: digitRuns after := by
  have hds1 : ∀ d ∈ ds, ¬ ((fun c => !isdigit c) d = true) := by
    intro d hd; simp [hds d hd]
  have hemp : (!ds.isEmpty) = true := by
    cases ds with
    | nil => exact absurd rfl hne
    | cons _ _ => rfl
  cases after with
  | nil =>
    rw [List.append_nil, digitRuns_nil]
    simp only [digitRuns, List.splitOnP_eq_single _ _ hds1]
    simp [List.filter, hemp]
  | cons x l =>
    have hx : isdigit x = false := hafter x (by simp)
    rw [digitRuns_cons_sep x l hx]
    simp only [digitRuns]
    rw [List.splitOnP_first _ _ hds1 x (by simp [hx])]
    simp [List.filter, hemp]

/-- Every line is made of separators only, or starts with separators followed
by a maximal digit run. -/
theorem run_split (body : List Byte) :
    (∀ x ∈ body, isdigit x = false) ∨
    ∃ seps ds after, body = seps ++ (ds ++ after) ∧ (∀ s ∈ seps, isdigit s = false) ∧
      ds ≠ [] ∧ (∀ d ∈ ds, isdigit d = true) ∧ (∀ x ∈ after.head?, isdigit x = false) ∧
      after.length < body.length := by
  induction body with
  | nil => left; simp
  | cons c body ih =>
    by_cases hc : isdigit c = true
    · right
      rcases ih with hall | ⟨seps, ds, after, hb, hseps, hne, hds, hafter, hlen⟩
      · refine ⟨[], [c], body, by simp, by simp, by simp, by simp [hc], ?_, by simp⟩
        intro x hx
        cases body with
        | nil => simp at hx
        | cons y l =>
          simp at hx; subst hx; exact hall _ (by simp)
      · cases seps with
        | nil =>
          refine ⟨[], c :: ds, after, by simp [hb], by simp, by simp, ?_, hafter, ?_⟩
          · intro d hd
            rcases List.mem_cons.1 hd with rfl | hd
            · exact hc
            · exact hds d hd
          · simp; omega
        | cons s seps =>
          refine ⟨[], [c], body, by simp, by simp, by simp, by simp [hc], ?_, by simp⟩
          intro x hx
          rw [hb] at hx
          simp at hx; subst hx; exact hseps _ (by simp)
    · have hc1 : isdigit c = false := by simpa using hc
      rcases ih with hall | ⟨seps, ds, after, hb, hseps, hne, hds, hafter, hlen⟩
      · left
        intro x hx
        rcases List.mem_cons.1 hx with rfl | hx
        · exact hc1
        · exact hall x hx
      · right
        refine ⟨c :: seps, ds, after, by simp [hb], ?_, hne, hds, hafter, by simp; omega⟩
        intro x hx
        rcases List.mem_cons.1 hx with rfl | hx
        · exact hc1
        · exact hseps x hx

/-! ## The row decoder -/

theorem find_digit_digit (x : Byte) (more : List Byte) (hx : isdigit x = true) :
    find_digit (x :: more) = some (x :: more) := by
  cases more <;> simp [find_digit, hx]

theorem find_digit_skip (x : Byte) (more : List Byte) (seps : List Byte) :
    (∀ s ∈ seps, isdigit s = false ∧ s ≠ NL) →
    (isdigit x = true ∨ (x = NL ∧ seps ≠ [])) →
    find_digit (seps ++ x :: more) = some (x :: more) := by
  induction seps with
  | nil =>
    intro _ hx
    rcases hx with hx | ⟨_, h⟩
    · exact find_digit_digit x more hx
    · exact absurd rfl h
  | cons s seps ih =>
    intro hseps hx
    have hs := hseps s (by simp)
    have hseps1 : ∀ t ∈ seps, isdigit t = false ∧ t ≠ NL := fun t ht => hseps t (by simp [ht])
    cases seps with
    | nil =>
      by_cases hxn : x = NL
      · simp [find_digit, hs.1, hxn]
      · have hxd : isdigit x = true := by
          rcases hx with hx | ⟨h, _⟩
          · exact hx
          · exact absurd h hxn
        simp only [List.cons_append, List.nil_append]
        rw [find_digit]
        simp only [hs.1, Bool.not_false, if_true, hxn, if_false]
        exact find_digit_digit x more hxd
    | cons t seps =>
      have ht := hseps t (by simp)
      have hrec := ih hseps1 (by
        rcases hx with hx | ⟨h, _⟩
        · exact Or.inl hx
        · exact Or.inr ⟨h, by simp⟩)
      simp only [List.cons_append] at hrec ⊢
      rw [find_digit]
      simp only [hs.1, Bool.not_false, if_true, ht.2, if_false]
      exact hrec

theorem strtol_run (ds : List Byte) (x : Byte) (more : List Byte) (hne : ds ≠ [])
    (hds : ∀ d ∈ ds, isdigit d = true) (hx : isdigit x = false) :
    strtol (ds ++ x :: more) = some (min (decimal ds : Int) LONG_MAX, x :: more) := by
  cases ds with
  | nil => exact absurd rfl hne
  | cons d ds =>
    have hd : isdigit d = true := hds d (by simp)
    have hsp : isspace d = false := isdigit_not_space d hd
    have hb := (isdigit_bounds d).1 hd
    have h45 : ¬ d.val = 45 := by omega
    have h43 : ¬ d.val = 43 := by omega
    have htake : (d :: ds ++ x :: more).takeWhile isdigit = d :: ds := by
      rw [List.takeWhile_append_of_pos hds]
      simp [hx]
    have hdrop : (d :: ds ++ x :: more).dropWhile isdigit = x :: more := by
      rw [List.dropWhile_append_of_pos hds]
      simp [hx]
    have hsp1 : (d :: ds ++ x :: more).dropWhile isspace = d :: ds ++ x :: more := by
      simp [hsp]
    simp only [strtol, hsp1]
    simp only [List.cons_append, h45, h43, if_false]
    simp only [← List.cons_append, htake, hdrop]
    simp

theorem get_digits_run (ds : List Byte) (x : Byte) (more : List Byte) (hne : ds ≠ [])
    (hds : ∀ d ∈ ds, isdigit d = true) (hx : isdigit x = false) :
    get_digits (ds ++ x :: more) = some (toInt32 (min (decimal ds : Int) LONG_MAX), x :: more) := by
  simp only [get_digits, strtol_run ds x more hne hds hx]
  have : (x :: more).length ≠ (ds ++ x :: more).length := by
    cases ds with
    | nil => exact absurd rfl hne
    | cons d ds => simp; omega
  simp [this, hne]

theorem plain_to_raw_loop_step (fuel : Nat) (c : Byte) (t : List Byte) (hc : c ≠ NL)
    (new_line : Buf) (raw_counter width : Nat) :
    plain_to_raw_loop (fuel + 1) (c :: t) new_line raw_counter width
      = match find_digit (c :: t) with
        | none => none
        | some [] => none
        | some (d :: rest1) =>
          if d = NL then some (new_line, width)
          else
            match get_digits (d :: rest1) with
            | none => none
            | some (digits, remaining) =>
              match store new_line raw_counter (toChar digits) with
              | none => none
              | some new_line1 =>
                plain_to_raw_loop fuel remaining new_line1 (raw_counter + 1) (raw_counter + 1) := by
  rw [plain_to_raw_loop]
  simp only [hc, ne_eq, not_false_eq_true, if_true]

theorem plain_to_raw_loop_spec (rest : List Byte) :
    ∀ (fuel : Nat) (body pre : List Byte) (tail : Buf) (width : Nat),
      (∀ x ∈ body, x ≠ NL) → body.length + 1 ≤ fuel → (digitRuns body).length ≤ tail.length →
      plain_to_raw_loop fuel (body ++ NL :: rest) (pre.map some ++ tail) pre.length width
        = some ((pre ++ decodeRow body).map some ++ tail.drop (digitRuns body).length,
            if (digitRuns body).length = 0 then width else pre.length + (digitRuns body).length) := by
  intro fuel
  induction fuel with
  | zero => intro body pre tail width _ h; omega
  | succ fuel ih =>
    intro body pre tail width hbody hfuel htail
    cases body with
    | nil => simp [plain_to_raw_loop, digitRuns_nil, decodeRow]
    | cons c b =>
      have hc : c ≠ NL := hbody c (by simp)
      rw [List.cons_append, plain_to_raw_loop_step fuel c _ hc, ← List.cons_append]
      rcases run_split (c :: b) with hall | ⟨seps, ds, after, hb, hseps, hne, hds, hafter, hlen⟩
      · have hfd : find_digit ((c :: b) ++ NL :: rest) = some (NL :: rest) :=
          find_digit_skip NL rest (c :: b) (fun s hs => ⟨hall s hs, hbody s hs⟩)
            (Or.inr ⟨rfl, by simp⟩)
        rw [hfd]
        simp [digitRuns_all_seps _ hall, decodeRow]
      · have hruns : digitRuns (c :: b) = ds :: digitRuns after := by
          rw [hb, digitRuns_seps _ _ hseps, digitRuns_run ds after hne hds hafter]
        obtain ⟨d, ds1, rfl⟩ : ∃ d ds1, ds = d :: ds1 := by
          cases ds with
          | nil => exact absurd rfl hne
          | cons d ds1 => exact ⟨d, ds1, rfl⟩
        have hd : isdigit d = true := hds d (by simp)
        have hdn : d ≠ NL := isdigit_ne_NL d hd
        have hsepsn : ∀ s ∈ seps, isdigit s = false ∧ s ≠ NL := by
          intro s hs
          exact ⟨hseps s hs, hbody s (by rw [hb]; simp [hs])⟩
        have hfd : find_digit ((c :: b) ++ NL :: rest)
            = some (d :: (ds1 ++ (after ++ NL :: rest))) := by
          rw [hb]
          have := find_digit_skip d (ds1 ++ (after ++ NL :: rest)) seps hsepsn (Or.inl hd)
          simpa using this
        obtain ⟨x, more, hxm, hx⟩ : ∃ x more, after ++ NL :: rest = x :: more ∧
            isdigit x = false := by
          cases after with
          | nil => exact ⟨NL, rest, rfl, by decide⟩
          | cons y l => exact ⟨y, l ++ NL :: rest, rfl, hafter y (by simp)⟩
        have hgd : get_digits (d :: (ds1 ++ (after ++ NL :: rest)))
            = some (toInt32 (min (decimal (d :: ds1) : Int) LONG_MAX), after ++ NL :: rest) := by
          rw [hxm]
          exact get_digits_run (d :: ds1) x more hne hds hx
        have htail1 : 1 ≤ tail.length := by rw [hruns] at htail; simp at htail; omega
        have hafterNL : ∀ y ∈ after, y ≠ NL := by
          intro y hy
          exact hbody y (by rw [hb]; simp [hy])
        have hrec := ih after (pre ++ [pixel (d :: ds1)]) (tail.drop 1) (pre.length + 1) hafterNL
          (by simp at hfuel hlen; omega) (by rw [hruns] at htail; simp at htail ⊢; omega)
        rw [hfd]
        simp only [hdn, if_false, hgd]
        have hst := store_written pre tail (pixel (d :: ds1)) htail1
        simp only [pixel] at hst hrec
        simp only [hst]
        simp only [List.length_append, List.length_singleton] at hrec
        rw [hrec, hruns]
        simp [decodeRow, hruns, pixel, Nat.add_comm, Nat.add_left_comm]
        split
        · next h => simp [h]
        · omega

theorem digitRuns_length_le_aux (n : Nat) :
    ∀ body : List Byte, body.length ≤ n →
      (digitRuns body).length ≤ (signature body).length + 1 := by
  induction n with
  | zero =>
    intro body hn
    have : body = [] := List.length_eq_zero.1 (by omega)
    rw [this, digitRuns_nil]; simp
  | succ n ih =>
    intro body hn
    rcases run_split body with hall | ⟨seps, ds, after, hb, hseps, hne, hds, hafter, hlen⟩
    · rw [digitRuns_all_seps _ hall]; simp
    · have hruns : digitRuns body = ds :: digitRuns after := by
        rw [hb, digitRuns_seps _ _ hseps, digitRuns_run ds after hne hds hafter]
      have hsig : signature body = signature seps ++ signature after := by
        rw [hb]
        simp only [signature, List.filter_append]
        have : ds.filter (fun c => !isdigit c) = [] := by
          rw [List.filter_eq_nil_iff]
          intro d hd; simp [hds d hd]
        rw [this, List.nil_append]
      cases after with
      | nil => rw [hruns, digitRuns_nil]; simp
      | cons y l =>
        have hy : isdigit y = false := hafter y (by simp)
        have h1 : (digitRuns l).length ≤ (signature l).length + 1 :=
          ih l (by simp at hlen; omega)
        rw [hruns, digitRuns_cons_sep y l hy, hsig]
        have : signature (y :: l) = y :: signature l := by simp [signature, hy]
        rw [this]
        simp
        omega

theorem digitRuns_length_le (body : List Byte) :
    (digitRuns body).length ≤ (signature body).length + 1 :=
  digitRuns_length_le_aux body.length body (Nat.le_refl _)

theorem plain_to_raw_eq (body rest : List Byte) (num width : Nat)
    (hbody : ∀ x ∈ body, x ≠ NL) (hnum : (digitRuns body).length ≤ num) :
    plain_to_raw (body ++ NL :: rest) num width
      = some ((decodeRow body).map some ++ malloc (num - (digitRuns body).length),
          if (digitRuns body).length = 0 then width else (digitRuns body).length) := by
  have := plain_to_raw_loop_spec rest ((body ++ NL :: rest).length + 1) body [] (malloc num) width
    hbody (by simp) (by rw [malloc_length]; exact hnum)
  simpa [plain_to_raw, malloc] using this

/-! ## The collecting phase -/

theorem streamOf_length (ls : List (List Byte)) : ls.length ≤ (streamOf ls).length := by
  induction ls with
  | nil => simp
  | cons l ls ih => simp [streamOf]; omega

theorem readaline_streamOf_cons (l : List Byte) (ls : List (List Byte)) (tail : List Byte)
    (hl : ∀ x ∈ l, x ≠ NL) :
    readaline (streamOf (l :: ls) ++ tail)
      = some (l.length + 1, some (l ++ [NL]), streamOf ls ++ tail) := by
  have := readaline_line l (streamOf ls ++ tail) hl
  simpa [streamOf] using this

theorem get_atom_line (l : List Byte) (hl : ∀ x ∈ l, x ≠ NL) :
    get_atom (l ++ [NL]) (l.length + 1) = some (signature l) :=
  get_atom_eq l [] (l.length + 1) hl (by have := signature_length_le l; omega)

theorem plain_to_raw_line (l : List Byte) (num width : Nat) (hl : ∀ x ∈ l, x ≠ NL)
    (hnum : (signature l).length + 1 ≤ num) :
    plain_to_raw (l ++ [NL]) num width = some (rowBuf l num, newWidth l width) :=
  plain_to_raw_eq l [] num width hl (by have := digitRuns_length_le l; omega)

theorem add_list_spec (S tail : List Byte) (htail : ∀ x ∈ tail, x ≠ NL) (post : List (List Byte)) :
    ∀ (l : List Byte) (my_list : List Buf) (width fuel : Nat),
      (∀ x ∈ l, x ≠ NL) → (∀ m ∈ post, ∀ x ∈ m, x ≠ NL) → post.length + 2 ≤ fuel →
      add_list fuel (some (l ++ [NL])) (l.length + 1) my_list S (streamOf post ++ tail) width
        = some (0, pushRows S (l :: post) my_list, [], widthAfter (genuine S (l :: post)) width) := by
  induction post with
  | nil =>
    intro l my_list width fuel hl _ hfuel
    obtain ⟨fuel, rfl⟩ : ∃ f, fuel = f + 2 := ⟨fuel - 2, by simp at hfuel; omega⟩
    rw [add_list]
    simp only [get_atom_line l hl, streamOf, List.nil_append, readaline_eof tail htail]
    by_cases hS : signature l = S
    · simp only [hS, if_true]
      rw [plain_to_raw_line l _ width hl (by have := signature_length_le l; omega)]
      simp [add_list, pushRows, genuine, widthAfter, hS]
    · simp [add_list, pushRows, genuine, widthAfter, hS]
  | cons m post ih =>
    intro l my_list width fuel hl hpost hfuel
    obtain ⟨fuel, rfl⟩ : ∃ f, fuel = f + 1 := ⟨fuel - 1, by simp at hfuel; omega⟩
    have hm : ∀ x ∈ m, x ≠ NL := hpost m (by simp)
    have hpost1 : ∀ k ∈ post, ∀ x ∈ k, x ≠ NL := fun k hk => hpost k (by simp [hk])
    rw [add_list]
    simp only [get_atom_line l hl, readaline_streamOf_cons m post tail hm]
    by_cases hS : signature l = S
    · simp only [hS, if_true]
      rw [plain_to_raw_line l _ width hl (by have := signature_length_le l; omega)]
      simp only []
      rw [ih m _ _ fuel hm hpost1 (by simp at hfuel; omega)]
      simp [pushRows, genuine, widthAfter, hS]
    · simp only [hS, if_false]
      rw [ih m _ _ fuel hm hpost1 (by simp at hfuel; omega)]
      simp [pushRows, genuine, widthAfter, hS]

/-! ## The image emitter -/

theorem print_row_from_spec (row : Buf) :
    ∀ (n i : Nat), i + n ≤ row.length → print_row_from row n i = some ((row.drop i).take n) := by
  intro n
  induction n with
  | zero => intro i _; simp [print_row_from]
  | succ n ih =>
    intro i hi
    have hlt : i < row.length := by omega
    rw [print_row_from, load, List.getElem?_eq_getElem hlt]
    simp only [ih (i + 1) (by omega)]
    rw [List.drop_eq_getElem_cons hlt, List.take_succ_cons]
    rfl

theorem print_rows_spec (width : Nat) (rows : List Buf) (h : ∀ row ∈ rows, width ≤ row.length) :
    print_rows rows width = some (rowsBytes width rows) := by
  induction rows with
  | nil => simp [print_rows, rowsBytes]
  | cons row rows ih =>
    have h1 : width ≤ row.length := h row (by simp)
    have h2 : ∀ r ∈ rows, width ≤ r.length := fun r hr => h r (by simp [hr])
    rw [print_rows, print_row_from_spec row width 0 (by omega), ih h2]
    simp [rowsBytes]

theorem print_image_spec (my_list : List Buf) (width : Nat)
    (h : ∀ row ∈ my_list, width ≤ row.length) :
    print_image my_list width
      = some ((header width my_list.length).map some ++ rowsBytes width my_list.reverse, []) := by
  rw [print_image]
  simp only [print_rows_spec width my_list.reverse (fun row hr => h row (List.mem_reverse.1 hr))]

theorem rowsBytes_length (width : Nat) (rows : List Buf) (h : ∀ row ∈ rows, width ≤ row.length) :
    (rowsBytes width rows).length = width * rows.length := by
  induction rows with
  | nil => simp [rowsBytes]
  | cons row rows ih =>
    have h1 : width ≤ row.length := h row (by simp)
    have h2 : ∀ r ∈ rows, width ≤ r.length := fun r hr => h r (by simp [hr])
    simp [rowsBytes, ih h2, Nat.min_eq_left h1, Nat.mul_succ]
    omega

/-! ## The signature table -/

theorem Table_get_tableOf_none (S : List Byte) (seen : List (List Byte))
    (h : S ∉ seen.map signature) : Table_get (tableOf seen) S = none := by
  induction seen with
  | nil => rfl
  | cons l seen ih =>
    simp only [List.map_cons, List.mem_cons, not_or] at h
    simp only [tableOf, List.map_cons, Table_get]
    rw [if_neg (fun e => h.1 e.symm)]
    exact ih h.2

theorem Table_get_tableOf_some (orig : List Byte) (seen : List (List Byte))
    (hnodup : (seen.map signature).Nodup) (horig : orig ∈ seen) :
    Table_get (tableOf seen) (signature orig) = some (orig ++ [NL]) := by
  induction seen with
  | nil => simp at horig
  | cons l seen ih =>
    simp only [List.map_cons, List.nodup_cons] at hnodup
    simp only [tableOf, List.map_cons, Table_get]
    rcases List.mem_cons.1 horig with rfl | hmem
    · simp
    · have hne : signature l ≠ signature orig := by
        intro e
        exact hnodup.1 (e ▸ List.mem_map_of_mem signature hmem)
      rw [if_neg hne]
      exact ih hnodup.2 hmem

theorem Table_get_map_put (key : Atom) (value : List Byte) (table : Table)
    (h : Table_get table key ≠ none) :
    Table_get (table.map (fun e => if e.1 = key then (key, value) else e)) key = some value := by
  induction table with
  | nil => exact absurd rfl h
  | cons e table ih =>
    obtain ⟨k, v⟩ := e
    by_cases hk : k = key
    · subst hk
      rw [List.map_cons, if_pos rfl, Table_get, if_pos rfl]
    · rw [Table_get, if_neg hk] at h
      rw [List.map_cons, if_neg (show ¬ ((k, v).1 = key) from hk), Table_get, if_neg hk]
      exact ih h

theorem Table_get_put (table : Table) (key : Atom) (value : List Byte) :
    Table_get (Table_put table key value).1 key = some value := by
  unfold Table_put
  cases hget : Table_get table key with
  | none => simp [Table_get]
  | some previous =>
    simp only
    exact Table_get_map_put key value table (by rw [hget]; simp)

theorem Table_put_new (table : Table) (key : Atom) (value : List Byte)
    (h : Table_get table key = none) :
    Table_put table key value = ((key, value) :: table, none) := by
  simp [Table_put, h]

theorem Table_put_old (table : Table) (key : Atom) (value previous : List Byte)
    (h : Table_get table key = some previous) :
    (Table_put table key value).2 = some previous := by
  simp [Table_put, h]

/-! ## Width and capacity of the rows -/

theorem rowBuf_length (l : List Byte) (num : Nat) : num ≤ (rowBuf l num).length := by
  simp [rowBuf, decodeRow, malloc]
  omega

theorem newWidth_le (l : List Byte) (width bound : Nat) (hw : width ≤ bound)
    (hl : (signature l).length + 1 ≤ bound) : newWidth l width ≤ bound := by
  unfold newWidth
  have := digitRuns_length_le l
  split <;> omega

theorem widthAfter_le (bound : Nat) (ls : List (List Byte)) :
    ∀ width, width ≤ bound → (∀ l ∈ ls, (signature l).length + 1 ≤ bound) →
      widthAfter ls width ≤ bound := by
  induction ls with
  | nil => intro width hw _; simpa [widthAfter] using hw
  | cons l ls ih =>
    intro width hw hls
    have h1 := newWidth_le l width bound hw (hls l (by simp))
    have := ih (newWidth l width) h1 (fun m hm => hls m (by simp [hm]))
    simpa [widthAfter] using this

theorem pushRows_capacity (S : List Byte) (bound : Nat) (ls : List (List Byte)) :
    ∀ my_list : List Buf, (∀ row ∈ my_list, bound ≤ row.length) →
      (∀ l ∈ ls, signature l = S → bound ≤ l.length + 1) →
      ∀ row ∈ pushRows S ls my_list, bound ≤ row.length := by
  induction ls with
  | nil => intro my_list h _; simpa [pushRows] using h
  | cons l ls ih =>
    intro my_list h hls
    have hls1 : ∀ m ∈ ls, signature m = S → bound ≤ m.length + 1 :=
      fun m hm => hls m (by simp [hm])
    by_cases hS : signature l = S
    · have := ih (rowBuf l (l.length + 1) :: my_list) (by
        intro row hrow
        rcases List.mem_cons.1 hrow with rfl | hrow
        · exact Nat.le_trans (hls l (by simp) hS) (rowBuf_length l _)
        · exact h row hrow) hls1
      simpa [pushRows, hS] using this
    · have := ih my_list h hls1
      simpa [pushRows, hS] using this

theorem collect_spec (S tail : List Byte) (htail : ∀ x ∈ tail, x ≠ NL) (post : List (List Byte))
    (hpost : ∀ m ∈ post, ∀ x ∈ m, x ≠ NL) (my_list : List Buf) (width : Nat) :
    ∃ num1 line1 fp1, readaline (streamOf post ++ tail) = some (num1, line1, fp1) ∧
      add_list (fp1.length + 2) line1 num1 my_list S fp1 width
        = some (0, pushRows S post my_list, [], widthAfter (genuine S post) width) := by
  cases post with
  | nil =>
    refine ⟨0, none, [], by simpa [streamOf] using readaline_eof tail htail, ?_⟩
    simp [add_list, pushRows, genuine, widthAfter]
  | cons m post =>
    have hm : ∀ x ∈ m, x ≠ NL := hpost m (by simp)
    have hpost1 : ∀ k ∈ post, ∀ x ∈ k, x ≠ NL := fun k hk => hpost k (by simp [hk])
    refine ⟨m.length + 1, some (m ++ [NL]), streamOf post ++ tail,
      readaline_streamOf_cons m post tail hm, ?_⟩
    exact add_list_spec S tail htail post m my_list width _ hm hpost1
      (by have := streamOf_length post; simp; omega)

theorem restoration_loop_new (fuel : Nat) (line : List Byte) (num width : Nat) (my_table : Table)
    (my_list : List Buf) (fp : List Byte) (out : Output) (a : Atom)
    (hatom : get_atom line num = some a) (hget : Table_get my_table a = none) :
    restoration_loop (fuel + 1) (some line) num width my_table my_list fp out
      = (readaline fp).bind (fun r =>
          restoration_loop fuel r.2.1 r.1 width ((a, line) :: my_table) my_list r.2.2 out) := by
  rw [restoration_loop]
  simp only [hatom, Table_put_new my_table a line hget, add_duplicates]
  cases readaline fp with
  | none => rfl
  | some r => rfl

theorem add_duplicates_found (orig lj : List Byte) (my_table : Table)
    (horig : ∀ x ∈ orig, x ≠ NL) (hlj : ∀ x ∈ lj, x ≠ NL) (hsig : signature orig = signature lj)
    (hget : Table_get my_table (signature lj) = some (lj ++ [NL])) :
    add_duplicates (some (orig ++ [NL])) (lj.length + 1) 0 my_table [] (signature lj)
      = some (true, newWidth lj (newWidth orig 0),
          [rowBuf lj (lj.length + 1), rowBuf orig (lj.length + 1)]) := by
  have h1 := signature_length_le lj
  rw [add_duplicates]
  simp only [plain_to_raw_line orig (lj.length + 1) 0 horig (by rw [hsig]; omega), hget,
    plain_to_raw_line lj (lj.length + 1) _ hlj (by omega)]

theorem imageRows_capacity (orig lj : List Byte) (post : List (List Byte))
    (hsig : signature orig = signature lj) :
    ∀ row ∈ imageRows orig lj post, imageWidth orig lj post ≤ row.length := by
  have hS := signature_length_le lj
  have hw : imageWidth orig lj post ≤ (signature lj).length + 1 := by
    apply widthAfter_le _ _ 0 (by omega)
    intro l hl
    rcases List.mem_cons.1 hl with rfl | hl
    · rw [hsig]
    · rcases List.mem_cons.1 hl with rfl | hl
      · exact Nat.le_refl _
      · have := (List.mem_filter.1 hl).2
        simp only [decide_eq_true_eq] at this
        rw [this]
  have hcap := pushRows_capacity (signature lj) ((signature lj).length + 1) post
    [rowBuf lj (lj.length + 1), rowBuf orig (lj.length + 1)] (by
      intro row hrow
      have h1 := rowBuf_length lj (lj.length + 1)
      have h2 := rowBuf_length orig (lj.length + 1)
      simp only [List.mem_cons, List.mem_singleton, List.not_mem_nil, or_false] at hrow
      rcases hrow with rfl | rfl <;> omega) (by
      intro l _ hl
      have := signature_length_le l
      rw [hl] at this
      omega)
  intro row hrow
  exact Nat.le_trans hw (hcap row hrow)

theorem restoration_loop_found (fuel : Nat) (tail : List Byte) (htail : ∀ x ∈ tail, x ≠ NL)
    (orig lj : List Byte) (post seen : List (List Byte))
    (horig : ∀ x ∈ orig, x ≠ NL) (hlj : ∀ x ∈ lj, x ≠ NL)
    (hpost : ∀ m ∈ post, ∀ x ∈ m, x ≠ NL) (hsig : signature orig = signature lj)
    (hnodup : (seen.map signature).Nodup) (hmem : orig ∈ seen) :
    restoration_loop (fuel + 2) (some (lj ++ [NL])) (lj.length + 1) 0 (tableOf seen) []
        (streamOf post ++ tail) ⟨[], []⟩
      = some ⟨(header (imageWidth orig lj post) (imageRows orig lj post).length).map some
            ++ rowsBytes (imageWidth orig lj post) (imageRows orig lj post).reverse,
          [(imageRows orig lj post, imageWidth orig lj post)]⟩ := by
  have hget : Table_get (tableOf seen) (signature lj) = some (orig ++ [NL]) := by
    rw [← hsig]; exact Table_get_tableOf_some orig seen hnodup hmem
  obtain ⟨num1, line1, fp1, hread, hadd⟩ := collect_spec (signature lj) tail htail post hpost
    [rowBuf lj (lj.length + 1), rowBuf orig (lj.length + 1)] (newWidth lj (newWidth orig 0))
  have hw : widthAfter (genuine (signature lj) post) (newWidth lj (newWidth orig 0))
      = imageWidth orig lj post := by
    simp [imageWidth, widthAfter]
  rw [hw] at hadd
  rw [restoration_loop]
  simp only [get_atom_line lj hlj, Table_put_old _ _ _ _ hget,
    add_duplicates_found orig lj _ horig hlj hsig (Table_get_put _ _ _), hread, hadd]
  have hprint := print_image_spec (imageRows orig lj post) (imageWidth orig lj post)
    (imageRows_capacity orig lj post hsig)
  simp only [imageRows] at hprint ⊢
  simp only [hprint, readaline_eof [] (by simp), restoration_loop, List.nil_append]

theorem restoration_loop_scan (tail : List Byte) (htail : ∀ x ∈ tail, x ≠ NL)
    (orig lj : List Byte) (post : List (List Byte))
    (horig : ∀ x ∈ orig, x ≠ NL) (hlj : ∀ x ∈ lj, x ≠ NL)
    (hpost : ∀ m ∈ post, ∀ x ∈ m, x ≠ NL) (hsig : signature orig = signature lj)
    (pre : List (List Byte)) :
    ∀ (seen : List (List Byte)) (fuel : Nat),
      (∀ m ∈ pre, ∀ x ∈ m, x ≠ NL) → ((pre.reverse ++ seen).map signature).Nodup →
      orig ∈ pre.reverse ++ seen → pre.length + 2 ≤ fuel →
      (readaline (streamOf (pre ++ lj :: post) ++ tail)).bind (fun r =>
          restoration_loop fuel r.2.1 r.1 0 (tableOf seen) [] r.2.2 ⟨[], []⟩)
        = some ⟨(header (imageWidth orig lj post) (imageRows orig lj post).length).map some
              ++ rowsBytes (imageWidth orig lj post) (imageRows orig lj post).reverse,
            [(imageRows orig lj post, imageWidth orig lj post)]⟩ := by
  induction pre with
  | nil =>
    intro seen fuel _ hnodup hmem hfuel
    obtain ⟨fuel, rfl⟩ : ∃ f, fuel = f + 2 := ⟨fuel - 2, by simp at hfuel; omega⟩
    rw [List.nil_append, readaline_streamOf_cons lj post tail hlj]
    simp only [Option.bind]
    exact restoration_loop_found fuel tail htail orig lj post seen horig hlj hpost hsig
      (by simpa using hnodup) (by simpa using hmem)
  | cons l pre ih =>
    intro seen fuel hpre hnodup hmem hfuel
    obtain ⟨fuel, rfl⟩ : ∃ f, fuel = f + 1 := ⟨fuel - 1, by simp at hfuel; omega⟩
    have hl : ∀ x ∈ l, x ≠ NL := hpre l (by simp)
    have hpre1 : ∀ m ∈ pre, ∀ x ∈ m, x ≠ NL := fun m hm => hpre m (by simp [hm])
    have hnodup1 : ((pre.reverse ++ l :: seen).map signature).Nodup := by
      simpa using hnodup
    have hnew : signature l ∉ seen.map signature := by
      intro hin
      rw [List.map_append, List.map_cons, List.nodup_append] at hnodup1
      have := hnodup1.2.1
      rw [List.nodup_cons] at this
      exact this.1 hin
    rw [List.cons_append, readaline_streamOf_cons l _ tail hl]
    simp only [Option.bind]
    rw [restoration_loop_new fuel _ _ 0 _ [] _ _ (signature l) (get_atom_line l hl)
      (Table_get_tableOf_none _ _ hnew)]
    exact ih (l :: seen) fuel hpre1 hnodup1 (by simpa using hmem) (by simp at hfuel; omega)

theorem restoration_eq_bind (fp : List Byte) :
    restoration fp = (readaline fp).bind (fun r =>
      restoration_loop (fp.length + 2) r.2.1 r.1 0 (tableOf []) [] r.2.2 ⟨[], []⟩) := by
  rw [restoration]
  cases readaline fp with
  | none => rfl
  | some r => rfl

/-- The run of `restoration` on a stream in which the line `lj` is the first
to repeat a signature, that of the earlier line `orig`. -/
theorem restoration_image (tail : List Byte) (htail : ∀ x ∈ tail, x ≠ NL)
    (orig lj : List Byte) (pre post : List (List Byte))
    (hpre : ∀ m ∈ pre, ∀ x ∈ m, x ≠ NL) (hlj : ∀ x ∈ lj, x ≠ NL)
    (hpost : ∀ m ∈ post, ∀ x ∈ m, x ≠ NL) (hsig : signature orig = signature lj)
    (hnodup : (pre.map signature).Nodup) (hmem : orig ∈ pre) :
    restoration (streamOf (pre ++ lj :: post) ++ tail)
      = some ⟨(header (imageWidth orig lj post) (imageRows orig lj post).length).map some
            ++ rowsBytes (imageWidth orig lj post) (imageRows orig lj post).reverse,
          [(imageRows orig lj post, imageWidth orig lj post)]⟩ := by
  rw [restoration_eq_bind]
  refine restoration_loop_scan tail htail orig lj post (hpre orig hmem) hlj hpost hsig pre [] _
    hpre ?_ (by simpa using hmem) ?_
  · simp only [List.append_nil, List.map_reverse]
    exact List.nodup_reverse.2 hnodup
  · have h1 := streamOf_length (pre ++ lj :: post)
    simp only [List.length_append, List.length_cons] at h1 ⊢
    omega

/-! ## The genuine lines and their rows -/

theorem written_map_some (cs : List Byte) (n : Nat) : written (cs.map some ++ malloc n) = cs := by
  induction cs with
  | nil => cases n <;> simp [written, malloc, List.replicate]
  | cons c cs ih => simp [written, ih]

theorem written_rowBuf (l : List Byte) (num : Nat) : written (rowBuf l num) = decodeRow l :=
  written_map_some _ _

theorem pixel_val (run : List Byte) (h : decimal run ≤ 255) : (pixel run).val = decimal run := by
  have h1 : min (decimal run : Int) LONG_MAX = (decimal run : Int) := by
    simp only [LONG_MAX]; omega
  have h2 : toInt32 (decimal run : Int) = (decimal run : Int) := by
    simp only [toInt32]; omega
  rw [pixel, h1, h2, toChar]
  simp only [Fin.ofNat, Fin.val_mk]
  omega

theorem decodeRow_val (l : List Byte) (h : ∀ r ∈ digitRuns l, decimal r ≤ 255) :
    (decodeRow l).map Fin.val = rowValues l := by
  simp only [decodeRow, rowValues, List.map_map]
  apply List.map_congr_left
  intro r hr
  exact pixel_val r (h r hr)

theorem restoration_loop_norepeat (tail : List Byte) (htail : ∀ x ∈ tail, x ≠ NL)
    (pre : List (List Byte)) :
    ∀ (seen : List (List Byte)) (fuel : Nat),
      (∀ m ∈ pre, ∀ x ∈ m, x ≠ NL) → ((pre.reverse ++ seen).map signature).Nodup →
      pre.length + 1 ≤ fuel →
      (readaline (streamOf pre ++ tail)).bind (fun r =>
          restoration_loop fuel r.2.1 r.1 0 (tableOf seen) [] r.2.2 ⟨[], []⟩)
        = some ⟨[], []⟩ := by
  induction pre with
  | nil =>
    intro seen fuel _ _ hfuel
    obtain ⟨fuel, rfl⟩ : ∃ f, fuel = f + 1 := ⟨fuel - 1, by simp at hfuel; omega⟩
    simp only [streamOf, List.nil_append, readaline_eof tail htail, Option.bind,
      restoration_loop]
  | cons l pre ih =>
    intro seen fuel hpre hnodup hfuel
    obtain ⟨fuel, rfl⟩ : ∃ f, fuel = f + 1 := ⟨fuel - 1, by simp at hfuel; omega⟩
    have hl : ∀ x ∈ l, x ≠ NL := hpre l (by simp)
    have hpre1 : ∀ m ∈ pre, ∀ x ∈ m, x ≠ NL := fun m hm => hpre m (by simp [hm])
    have hnodup1 : ((pre.reverse ++ l :: seen).map signature).Nodup := by
      simpa using hnodup
    have hnew : signature l ∉ seen.map signature := by
      intro hin
      rw [List.map_append, List.map_cons, List.nodup_append] at hnodup1
      have := hnodup1.2.1
      rw [List.nodup_cons] at this
      exact this.1 hin
    rw [readaline_streamOf_cons l _ tail hl]
    simp only [Option.bind]
    rw [restoration_loop_new fuel _ _ 0 _ [] _ _ (signature l) (get_atom_line l hl)
      (Table_get_tableOf_none _ _ hnew)]
    exact ih (l :: seen) fuel hpre1 hnodup1 (by simp at hfuel; omega)

theorem restoration_norepeat (tail : List Byte) (htail : ∀ x ∈ tail, x ≠ NL)
    (ls : List (List Byte)) (hls : ∀ m ∈ ls, ∀ x ∈ m, x ≠ NL)
    (hnodup : (ls.map signature).Nodup) :
    restoration (streamOf ls ++ tail) = some ⟨[], []⟩ := by
  rw [restoration_eq_bind]
  refine restoration_loop_norepeat tail htail ls [] _ hls ?_ ?_
  · simp only [List.append_nil, List.map_reverse]
    exact List.nodup_reverse.2 hnodup
  · have h1 := streamOf_length ls
    simp only [List.length_append] at h1 ⊢
    omega

/-! ## Deleting a noise line -/

theorem pixel_val_clamp (run : List Byte) :
    (pixel run).val = min (decimal run) 9223372036854775807 % 256 := by
  simp only [pixel, toChar, toInt32, LONG_MAX, Fin.ofNat, Fin.val_mk]
  omega

theorem decodeRow_val_clamp (l : List Byte) :
    (decodeRow l).map Fin.val
      = (digitRuns l).map (fun r => min (decimal r) 9223372036854775807 % 256) := by
  simp only [decodeRow, List.map_map]
  apply List.map_congr_left
  intro r _
  exact pixel_val_clamp r

theorem decodeRow_length (l : List Byte) : (decodeRow l).length = (digitRuns l).length := by
  simp [decodeRow]

theorem read_calls_lines (more : List (List Byte)) (ls : List (List Byte))
    (hls : ∀ l ∈ ls, ∀ x ∈ l, x ≠ NL) :
    read_calls ls.length (streamOf (ls ++ more))
      = some (ls.map (fun l => (l.length + 1, some (l ++ [NL]))), streamOf more) := by
  induction ls with
  | nil => rfl
  | cons l ls ih =>
    have hl : ∀ x ∈ l, x ≠ NL := hls l (by simp)
    have h := readaline_streamOf_cons l (ls ++ more) [] hl
    rw [List.append_nil, List.append_nil] at h
    simp only [List.length_cons, List.cons_append, read_calls, h,
      ih (fun m hm => hls m (by simp [hm]))]
    rfl

theorem streamOf_flatten (ls : List (List Byte)) :
    (ls.map (fun l => l ++ [NL])).flatten = streamOf ls := by
  induction ls with
  | nil => rfl
  | cons l ls ih => simp [streamOf, ih]

theorem read_calls_append (fp : List Byte) (n : Nat) :
    ∀ (m : Nat) (fp0 : List Byte) (r1 : List (Nat × Option (List Byte)))
      (r2 : List (Nat × Option (List Byte))) (fp2 : List Byte),
      read_calls m fp0 = some (r1, fp) → read_calls n fp = some (r2, fp2) →
      read_calls (m + n) fp0 = some (r1 ++ r2, fp2) := by
  intro m
  induction m with
  | zero =>
    intro fp0 r1 r2 fp2 h1 h2
    simp only [read_calls, Option.some.injEq, Prod.mk.injEq] at h1
    obtain ⟨rfl, rfl⟩ := h1
    simpa using h2
  | succ m ih =>
    intro fp0 r1 r2 fp2 h1 h2
    rw [show m + 1 + n = (m + n) + 1 from by omega]
    rw [read_calls] at h1 ⊢
    cases hr : readaline fp0 with
    | none => rw [hr] at h1; simp at h1
    | some r =>
      obtain ⟨num, line, fp1⟩ := r
      rw [hr] at h1
      simp only at h1 ⊢
      cases hc : read_calls m fp1 with
      | none => rw [hc] at h1; simp at h1
      | some q =>
        obtain ⟨q1, q2⟩ := q
        rw [hc] at h1
        simp only [Option.map_some', Option.some.injEq, Prod.mk.injEq] at h1
        obtain ⟨rfl, rfl⟩ := h1
        rw [ih fp1 q1 r2 fp2 hc h2]
        rfl

/-! ## The states of the reader -/

theorem read_through_unfold (fuel : Nat) (c_int : Int) (counter init_cap : Nat) (line : Buf)
    (inputfd : List Byte) :
    read_through (fuel + 1) c_int counter init_cap line inputfd
      = if toChar c_int ≠ NL ∧ c_int ≠ -1 then
          (read_through_body c_int counter init_cap line inputfd).bind
            (fun s => read_through fuel s.1 s.2.1 s.2.2.1 s.2.2.2.1 s.2.2.2.2)
        else some (c_int, counter, init_cap, line, inputfd) := by
  rw [read_through]
  split
  · simp only [read_through_body]
    cases store (if counter = init_cap - 1 then expand line init_cap else (line, init_cap)).1
        (counter - 1) (toChar c_int) with
    | none => rfl
    | some line1 => rfl
  · rfl

/-- The loop of `read_through` with fuel `i + (k + 1)` is the loop stopped
after at most `i` runs of its body, followed by the loop with fuel `k + 1`. -/
theorem read_through_iter_link (k : Nat) (i : Nat) :
    ∀ (c_int : Int) (counter init_cap : Nat) (line : Buf) (inputfd : List Byte),
      read_through (i + (k + 1)) c_int counter init_cap line inputfd
        = (read_through_iter i c_int counter init_cap line inputfd).bind
            (fun s => read_through (k + 1) s.1 s.2.1 s.2.2.1 s.2.2.2.1 s.2.2.2.2) := by
  induction i with
  | zero =>
    intro c_int counter init_cap line inputfd
    simp [read_through_iter]
  | succ i ih =>
    intro c_int counter init_cap line inputfd
    rw [show i + 1 + (k + 1) = (i + (k + 1)) + 1 from by omega, read_through_unfold,
      read_through_iter]
    by_cases hc : toChar c_int ≠ NL ∧ c_int ≠ -1
    · rw [if_pos hc, if_pos hc]
      cases hb : read_through_body c_int counter init_cap line inputfd with
      | none => rfl
      | some s =>
        obtain ⟨c1, counter1, cap1, line1, fd1⟩ := s
        simp only [Option.bind]
        exact ih c1 counter1 cap1 line1 fd1
    · rw [if_neg hc, if_neg hc]
      simp only [Option.bind]
      rw [read_through_unfold, if_neg hc]

theorem read_through_iter_succ (i : Nat) :
    ∀ (c_int : Int) (counter init_cap : Nat) (line : Buf) (inputfd : List Byte),
      read_through_iter (i + 1) c_int counter init_cap line inputfd
        = (read_through_iter i c_int counter init_cap line inputfd).bind
            (fun s => read_through_iter 1 s.1 s.2.1 s.2.2.1 s.2.2.2.1 s.2.2.2.2) := by
  induction i with
  | zero =>
    intro c_int counter init_cap line inputfd
    simp [read_through_iter]
  | succ i ih =>
    intro c_int counter init_cap line inputfd
    rw [read_through_iter]
    by_cases hc : toChar c_int ≠ NL ∧ c_int ≠ -1
    · rw [if_pos hc]
      cases hb : read_through_body c_int counter init_cap line inputfd with
      | none => simp [read_through_iter, hc, hb]
      | some s =>
        obtain ⟨c1, counter1, cap1, line1, fd1⟩ := s
        simp only
        rw [ih c1 counter1 cap1 line1 fd1]
        conv_rhs => rw [read_through_iter, if_pos hc, hb]
    · rw [if_neg hc]
      conv_rhs => rw [read_through_iter, if_neg hc]
      simp [read_through_iter, hc]

theorem realloc_length (buf : Buf) (n : Nat) (h : buf.length ≤ n) :
    (realloc buf n).length = n := by
  simp [realloc, malloc]
  omega

theorem store_length (buf buf1 : Buf) (i : Nat) (c : Byte) (h : store buf i c = some buf1) :
    buf1.length = buf.length := by
  unfold store at h
  split at h
  · simp only [Option.some.injEq] at h
    rw [← h, List.length_set]
  · simp at h

/-- The invariant of the loop of `read_through`, kept by its body: the
capacity is 1000 times a power of two, the line buffer has that many bytes,
and the counter is at least 1 and below the capacity minus 1.  The store of
the body is inside the buffer, and the capacity doubles exactly when the
counter equals the capacity minus 1. -/
theorem read_through_body_inv (c_int : Int) (counter cap : Nat) (line : Buf)
    (inputfd : List Byte) (hj : ∃ j, cap = 1000 * 2 ^ j) (hlen : line.length = cap)
    (h1 : 1 ≤ counter) (h2 : counter + 1 ≤ cap) :
    ∃ line1 : Buf,
      store (if counter = cap - 1 then realloc line (cap * 2) else line) (counter - 1)
          (toChar c_int) = some line1 ∧
      counter - 1 < (if counter = cap - 1 then cap * 2 else cap) ∧
      read_through_body c_int counter cap line inputfd
        = some ((get_char inputfd counter).1, counter + 1,
            (if counter = cap - 1 then cap * 2 else cap), line1,
            (get_char inputfd counter).2.1) ∧
      (∃ j, (if counter = cap - 1 then cap * 2 else cap) = 1000 * 2 ^ j) ∧
      line1.length = (if counter = cap - 1 then cap * 2 else cap) ∧
      counter + 1 + 1 ≤ (if counter = cap - 1 then cap * 2 else cap) := by
  have hgc : ∀ k, (get_char inputfd k).2.2 = k + 1 := by
    intro k; cases inputfd <;> rfl
  by_cases hg : counter = cap - 1
  · simp only [hg, if_true]
    have hl : (realloc line (cap * 2)).length = cap * 2 :=
      realloc_length line (cap * 2) (by omega)
    have hs : cap - 1 - 1 < (realloc line (cap * 2)).length := by omega
    refine ⟨(realloc line (cap * 2)).set (cap - 1 - 1) (some (toChar c_int)), ?_, by omega, ?_,
      ?_, ?_, by omega⟩
    · simp [store, hs]
    · have hgc1 := hgc (cap - 1)
      simp only [read_through_body, if_true, expand, store, hs]
      rw [hgc1]
    · obtain ⟨j, hj⟩ := hj
      exact ⟨j + 1, by rw [hj, pow_succ]; ring⟩
    · rw [List.length_set, hl]
  · simp only [hg, if_false]
    have hs : counter - 1 < line.length := by omega
    refine ⟨line.set (counter - 1) (some (toChar c_int)), ?_, by omega, ?_, hj, ?_, by omega⟩
    · simp [store, hs]
    · have hgc1 := hgc counter
      simp only [read_through_body, hg, if_false, store, hs, if_true]
      rw [hgc1]
    · rw [List.length_set, hlen]

theorem read_through_iter_inv (i : Nat) :
    ∀ (c_int : Int) (counter cap : Nat) (line : Buf) (inputfd : List Byte),
      (∃ j, cap = 1000 * 2 ^ j) → line.length = cap → 1 ≤ counter → counter + 1 ≤ cap →
      ∃ c1 counter1 cap1 line1 fd1,
        read_through_iter i c_int counter cap line inputfd
          = some (c1, counter1, cap1, line1, fd1) ∧
        (∃ j, cap1 = 1000 * 2 ^ j) ∧ line1.length = cap1 ∧ 1 ≤ counter1 ∧
        counter1 + 1 ≤ cap1 := by
  induction i with
  | zero =>
    intro c_int counter cap line inputfd hj hlen h1 h2
    exact ⟨c_int, counter, cap, line, inputfd, rfl, hj, hlen, h1, h2⟩
  | succ i ih =>
    intro c_int counter cap line inputfd hj hlen h1 h2
    rw [read_through_iter]
    by_cases hc : toChar c_int ≠ NL ∧ c_int ≠ -1
    · rw [if_pos hc]
      obtain ⟨line1, _, _, hb, hj1, hlen1, h21⟩ :=
        read_through_body_inv c_int counter cap line inputfd hj hlen h1 h2
      rw [hb]
      exact ih _ _ _ _ _ hj1 hlen1 (by omega) h21
    · rw [if_neg hc]
      exact ⟨c_int, counter, cap, line, inputfd, rfl, hj, hlen, h1, h2⟩

theorem first_newline (fp : List Byte) :
    (∀ x ∈ fp, x ≠ NL) ∨
    ∃ body rest, fp = body ++ NL :: rest ∧ ∀ x ∈ body, x ≠ NL := by
  induction fp with
  | nil => left; simp
  | cons c fp ih =>
    by_cases hc : c = NL
    · right; exact ⟨[], fp, by simp [hc], by simp⟩
    · rcases ih with hall | ⟨body, rest, hfp, hbody⟩
      · left
        intro x hx
        rcases List.mem_cons.1 hx with rfl | hx
        · exact hc
        · exact hall x hx
      · right
        refine ⟨c :: body, rest, by simp [hfp], ?_⟩
        intro x hx
        rcases List.mem_cons.1 hx with rfl | hx
        · exact hc
        · exact hbody x hx

theorem readaline_total (fp : List Byte) : ∃ r, readaline fp = some r := by
  rcases first_newline fp with hall | ⟨body, rest, rfl, hbody⟩
  · exact ⟨_, readaline_eof fp hall⟩
  · exact ⟨_, readaline_line body rest hbody⟩

/-! ## Every stream -/

/-- Every stream is made of newline-terminated lines followed by bytes
without a newline. -/
theorem split_stream (fp : List Byte) :
    ∃ (ls : List (List Byte)) (tail : List Byte),
      fp = streamOf ls ++ tail ∧ (∀ l ∈ ls, ∀ x ∈ l, x ≠ NL) ∧ ∀ x ∈ tail, x ≠ NL := by
  induction fp with
  | nil => exact ⟨[], [], rfl, by simp, by simp⟩
  | cons c fp ih =>
    obtain ⟨ls, tail, hfp, hls, htail⟩ := ih
    by_cases hc : c = NL
    · refine ⟨[] :: ls, tail, by simp [streamOf, hfp, hc], ?_, htail⟩
      intro l hl
      rcases List.mem_cons.1 hl with rfl | hl
      · simp
      · exact hls l hl
    · cases ls with
      | nil =>
        refine ⟨[], c :: tail, by simp [streamOf, hfp], by simp, ?_⟩
        intro x hx
        rcases List.mem_cons.1 hx with rfl | hx
        · exact hc
        · exact htail x hx
      | cons l ls =>
        refine ⟨(c :: l) :: ls, tail, by simp [streamOf, hfp], ?_, htail⟩
        intro m hm
        rcases List.mem_cons.1 hm with rfl | hm
        · intro x hx
          rcases List.mem_cons.1 hx with rfl | hx
          · exact hc
          · exact hls l (by simp) x hx
        · exact hls m (by simp [hm])

/-- The signatures of a list of lines are pairwise distinct, or some line is
the earliest one to repeat a signature. -/
theorem first_repeat (ls : List (List Byte)) :
    (ls.map signature).Nodup ∨
    ∃ pre lj post, ls = pre ++ lj :: post ∧ (pre.map signature).Nodup ∧
      signature lj ∈ pre.map signature := by
  induction ls using List.reverseRecOn with
  | nil => left; simp
  | append_singleton ls l ih =>
    rcases ih with hnodup | ⟨pre, lj, post, hls, hnodup, hrep⟩
    · by_cases hl : signature l ∈ ls.map signature
      · right; exact ⟨ls, l, [], rfl, hnodup, hl⟩
      · left
        rw [List.map_append, List.map_singleton]
        exact List.Nodup.append hnodup (List.nodup_singleton _) (by
          intro a ha hb
          rw [List.mem_singleton] at hb
          exact hl (hb ▸ ha))
    · right
      exact ⟨pre, lj, post ++ [l], by simp [hls], hnodup, hrep⟩

/-! ## The calls of get_digits -/

/-- The loop with the record of calls is the loop of `plain_to_raw`. -/
theorem plain_to_raw_traced_link :
    ∀ (fuel : Nat) (remaining : List Byte) (new_line : Buf) (raw_counter width : Nat),
      (plain_to_raw_traced fuel remaining new_line raw_counter width).map
          (fun r => (r.1, r.2.1))
        = plain_to_raw_loop fuel remaining new_line raw_counter width := by
  intro fuel
  induction fuel with
  | zero => intro remaining new_line raw_counter width; rfl
  | succ fuel ih =>
    intro remaining new_line raw_counter width
    cases remaining with
    | nil => rfl
    | cons c rest =>
      rw [plain_to_raw_traced, plain_to_raw_loop]
      by_cases hc : c = NL
      · simp [hc]
      · simp only [ne_eq, hc, not_false_eq_true, if_true]
        cases find_digit (c :: rest) with
        | none => rfl
        | some cur =>
          cases cur with
          | nil => rfl
          | cons d rest1 =>
            simp only
            by_cases hd : d = NL
            · simp [hd]
            · simp only [hd, if_false]
              cases get_digits (d :: rest1) with
              | none => rfl
              | some r =>
                obtain ⟨digits, remaining1⟩ := r
                simp only
                cases store new_line raw_counter (toChar digits) with
                | none => rfl
                | some new_line1 =>
                  simp only [Option.map_map]
                  rw [← ih remaining1 new_line1 (raw_counter + 1) (raw_counter + 1)]
                  rfl

theorem plain_to_raw_traced_calls (rest : List Byte) :
    ∀ (fuel : Nat) (body : List Byte) (new_line : Buf) (raw_counter width : Nat)
      (r : Buf × Nat × List (List Byte × List Byte)),
      (∀ x ∈ body, x ≠ NL) →
      plain_to_raw_traced fuel (body ++ NL :: rest) new_line raw_counter width = some r →
      (∀ call ∈ r.2.2, GoodCall rest call) ∧
      r.2.2.map (fun call => call.1.takeWhile isdigit) = digitRuns body := by
  intro fuel
  induction fuel with
  | zero =>
    intro body new_line raw_counter width r _ h
    simp [plain_to_raw_traced] at h
  | succ fuel ih =>
    intro body new_line raw_counter width r hbody h
    cases body with
    | nil =>
      simp only [List.nil_append, plain_to_raw_traced, ne_eq, not_true_eq_false, if_false,
        Option.some.injEq] at h
      rw [← h]
      simp [digitRuns_nil]
    | cons c b =>
      have hc : c ≠ NL := hbody c (by simp)
      rw [List.cons_append, plain_to_raw_traced, if_pos hc, ← List.cons_append] at h
      rcases run_split (c :: b) with hall | ⟨seps, ds, after, hb, hseps, hne, hds, hafter, hlen⟩
      · have hfd : find_digit ((c :: b) ++ NL :: rest) = some (NL :: rest) :=
          find_digit_skip NL rest (c :: b) (fun s hs => ⟨hall s hs, hbody s hs⟩)
            (Or.inr ⟨rfl, by simp⟩)
        rw [hfd] at h
        simp only [if_true, Option.some.injEq] at h
        rw [← h]
        simp [digitRuns_all_seps _ hall]
      · have hruns : digitRuns (c :: b) = ds :: digitRuns after := by
          rw [hb, digitRuns_seps _ _ hseps, digitRuns_run ds after hne hds hafter]
        obtain ⟨d, ds1, rfl⟩ : ∃ d ds1, ds = d :: ds1 := by
          cases ds with
          | nil => exact absurd rfl hne
          | cons d ds1 => exact ⟨d, ds1, rfl⟩
        have hd : isdigit d = true := hds d (by simp)
        have hdn : d ≠ NL := isdigit_ne_NL d hd
        have hsepsn : ∀ s ∈ seps, isdigit s = false ∧ s ≠ NL := by
          intro s hs
          exact ⟨hseps s hs, hbody s (by rw [hb]; simp [hs])⟩
        have hfd : find_digit ((c :: b) ++ NL :: rest)
            = some (d :: (ds1 ++ (after ++ NL :: rest))) := by
          rw [hb]
          have := find_digit_skip d (ds1 ++ (after ++ NL :: rest)) seps hsepsn (Or.inl hd)
          simpa using this
        obtain ⟨x, more, hxm, hx⟩ : ∃ x more, after ++ NL :: rest = x :: more ∧
            isdigit x = false := by
          cases after with
          | nil => exact ⟨NL, rest, rfl, by decide⟩
          | cons y l => exact ⟨y, l ++ NL :: rest, rfl, hafter y (by simp)⟩
        have hgd : get_digits (d :: (ds1 ++ (after ++ NL :: rest)))
            = some (toInt32 (min (decimal (d :: ds1) : Int) LONG_MAX), after ++ NL :: rest) := by
          rw [hxm]
          exact get_digits_run (d :: ds1) x more hne hds hx
        have hafterNL : ∀ y ∈ after, y ≠ NL := by
          intro y hy
          exact hbody y (by rw [hb]; simp [hy])
        have htake : (d :: (ds1 ++ (after ++ NL :: rest))).takeWhile isdigit = d :: ds1 := by
          rw [← List.cons_append, hxm, List.takeWhile_append_of_pos hds]
          simp [hx]
        rw [hfd] at h
        simp only [hdn, if_false, hgd] at h
        cases hst : store new_line raw_counter
            (toChar (toInt32 (min (decimal (d :: ds1) : Int) LONG_MAX))) with
        | none => rw [hst] at h; simp at h
        | some new_line1 =>
          rw [hst] at h
          simp only at h
          cases hrec : plain_to_raw_traced fuel (after ++ NL :: rest) new_line1
              (raw_counter + 1) (raw_counter + 1) with
          | none => rw [hrec] at h; simp at h
          | some r1 =>
            rw [hrec] at h
            simp only [Option.map_some', Option.some.injEq] at h
            obtain ⟨hgood, hmap⟩ := ih after new_line1 (raw_counter + 1) (raw_counter + 1) r1
              hafterNL hrec
            rw [← h]
            constructor
            · intro call hcall
              rcases List.mem_cons.1 hcall with rfl | hcall
              · exact ⟨d :: ds1, after, _, rfl, rfl, hne, hds, hafterNL, hafter, hgd⟩
              · exact hgood call hcall
            · simp only [List.map_cons, htake, hmap, hruns]

/-! ## Every run of restoration, and the scanners inside a line -/

/-- On every stream `restoration` completes: it writes nothing, or it calls
`print_image` once, for a line `lj` that repeats the signature of an earlier
line `orig`. -/
theorem restoration_cases (fp : List Byte) :
    restoration fp = some ⟨[], []⟩ ∨
    ∃ (orig lj : List Byte) (post : List (List Byte)),
      signature orig = signature lj ∧
      restoration fp
        = some ⟨(header (imageWidth orig lj post) (imageRows orig lj post).length).map some
              ++ rowsBytes (imageWidth orig lj post) (imageRows orig lj post).reverse,
            [(imageRows orig lj post, imageWidth orig lj post)]⟩ := by
  obtain ⟨ls, tail, hfp, hls, htail⟩ := split_stream fp
  rcases first_repeat ls with hnodup | ⟨pre, lj, post, hdec, hnodup, hrep⟩
  · left
    rw [hfp]
    exact restoration_norepeat tail htail ls hls hnodup
  · right
    obtain ⟨orig, hmem, hsig⟩ := List.mem_map.1 hrep
    subst hdec
    refine ⟨orig, lj, post, hsig, ?_⟩
    rw [hfp]
    exact restoration_image tail htail orig lj pre post
      (fun m hm => hls m (by simp [hm])) (hls lj (by simp))
      (fun m hm => hls m (by simp [hm])) hsig hnodup hmem

theorem load_below (row : Buf) (i : Nat) (h : i < row.length) : ∃ c, load row i = some c :=
  ⟨row[i], by simp [load, List.getElem?_eq_getElem h]⟩

/-- Called with the cursor on a byte of the line before the newline,
`find_digit` stops inside the line, on a digit or on the newline. -/
theorem find_digit_inside (m rest : List Byte) (hm : m ≠ []) (hmNL : ∀ x ∈ m, x ≠ NL) :
    ∃ (skipped cur : List Byte),
      find_digit (m ++ NL :: rest) = some cur ∧ m ++ NL :: rest = skipped ++ cur ∧
      rest.length < cur.length ∧ ∀ c ∈ cur.head?, isdigit c = true ∨ c = NL := by
  rcases run_split m with hall | ⟨seps, ds, after, hb, hseps, hne, hds, _, _⟩
  · refine ⟨m, NL :: rest, ?_, rfl, by simp, by simp⟩
    exact find_digit_skip NL rest m (fun s hs => ⟨hall s hs, hmNL s hs⟩) (Or.inr ⟨rfl, hm⟩)
  · obtain ⟨d, ds1, rfl⟩ : ∃ d ds1, ds = d :: ds1 := by
      cases ds with
      | nil => exact absurd rfl hne
      | cons d ds1 => exact ⟨d, ds1, rfl⟩
    have hd : isdigit d = true := hds d (by simp)
    refine ⟨seps, d :: (ds1 ++ (after ++ NL :: rest)), ?_, by rw [hb]; simp, by simp; omega,
      by simp [hd]⟩
    rw [hb]
    have := find_digit_skip d (ds1 ++ (after ++ NL :: rest)) seps
      (fun s hs => ⟨hseps s hs, hmNL s (by rw [hb]; simp [hs])⟩) (Or.inl hd)
    simpa using this

/-- A line returned by `readaline` is a stretch of bytes without a newline,
followed by one newline. -/
theorem readaline_shape (fp : List Byte) (n : Nat) (data rest : List Byte)
    (h : readaline fp = some (n, some data, rest)) :
    ∃ body, data = body ++ [NL] ∧ (∀ x ∈ body, x ≠ NL) ∧ n = body.length + 1 := by
  rcases first_newline fp with hall | ⟨body, rest1, rfl, hbody⟩
  · rw [readaline_eof fp hall] at h
    simp at h
  · rw [readaline_line body rest1 hbody] at h
    simp only [Option.some.injEq, Prod.mk.injEq] at h
    exact ⟨body, h.2.1.symm, hbody, h.1.symm⟩

/-! ## The rows as they are written -/

theorem int_incr_lt (i : Nat) (h : i < INT_MAX) : int_incr i = some (i + 1) := by
  simp [int_incr, h]

theorem int_incr_ge (i : Nat) (h : INT_MAX ≤ i) : int_incr i = none := by
  simp [int_incr]; omega

/-- While the line has at most `INT_MAX + 1` bytes from the start of the scan,
no counter of `plain_to_infusion` overflows. -/
theorem plain_to_infusion_int_loop_eq (line : List Byte) :
    ∀ (infusion : Buf) (infusion_counter counter : Nat),
      infusion_counter ≤ counter → counter + line.length ≤ INT_MAX + 1 →
      plain_to_infusion_int_loop line infusion infusion_counter counter
        = plain_to_infusion_loop line infusion infusion_counter := by
  induction line with
  | nil => intro _ _ _ _ _; rfl
  | cons c rest ih =>
    intro infusion ic counter hic hlen
    rw [plain_to_infusion_int_loop, plain_to_infusion_loop]
    by_cases hc : c ≠ NL
    · rw [if_pos hc, if_pos hc]
      cases rest with
      | nil =>
        -- the next read is past the end of the line in both
        have e1 : ∀ (b : Buf) (i k : Nat), plain_to_infusion_int_loop [] b i k = none :=
          fun _ _ _ => rfl
        have e2 : ∀ (b : Buf) (i : Nat), plain_to_infusion_loop [] b i = none := fun _ _ => rfl
        by_cases hd : (!isdigit c) = true
        · rw [if_pos hd, if_pos hd]
          cases store infusion ic c with
          | none => rfl
          | some infusion1 =>
            simp only [e2]
            cases int_incr ic with
            | none => rfl
            | some ic1 =>
              simp only
              cases int_incr counter with
              | none => rfl
              | some c1 => simp only [e1]
        · rw [if_neg hd, if_neg hd, e2]
          cases int_incr counter with
          | none => rfl
          | some c1 => simp only [e1]
      | cons d rest1 =>
        simp only [List.length_cons] at hlen
        have hcnt : counter < INT_MAX := by omega
        have hicl : ic < INT_MAX := by omega
        by_cases hd : (!isdigit c) = true
        · rw [if_pos hd, if_pos hd]
          cases store infusion ic c with
          | none => rfl
          | some infusion1 =>
            simp only [int_incr_lt _ hcnt, int_incr_lt _ hicl]
            exact ih _ _ _ (by omega) (by simp only [List.length_cons]; omega)
        · rw [if_neg hd, if_neg hd]
          simp only [int_incr_lt _ hcnt]
          exact ih _ _ _ (by omega) (by simp only [List.length_cons]; omega)
    · rw [if_neg hc, if_neg hc]

theorem plain_to_infusion_int_eq (line : List Byte) (num : Nat)
    (h : line.length ≤ INT_MAX + 1) :
    plain_to_infusion_int line num = plain_to_infusion line num :=
  plain_to_infusion_int_loop_eq line _ 0 0 (Nat.le_refl 0) (by omega)

/-- On a line with more than `INT_MAX` bytes before the newline the counter of
`plain_to_infusion` overflows. -/
theorem plain_to_infusion_int_loop_overflow (body rest : List Byte) :
    ∀ (infusion : Buf) (infusion_counter counter : Nat),
      (∀ x ∈ body, x ≠ NL) → counter ≤ INT_MAX → INT_MAX < counter + body.length →
      plain_to_infusion_int_loop (body ++ NL :: rest) infusion infusion_counter counter = none := by
  induction body with
  | nil => intro _ _ counter _ h1 h2; simp at h2; omega
  | cons c body ih =>
    intro infusion ic counter hbody hcnt hover
    have hc : c ≠ NL := hbody c (by simp)
    have hb : ∀ x ∈ body, x ≠ NL := fun x hx => hbody x (by simp [hx])
    simp only [List.length_cons] at hover
    rw [List.cons_append, plain_to_infusion_int_loop, if_pos hc]
    by_cases hlast : counter < INT_MAX
    · have hrec : ∀ (b : Buf) (i : Nat),
          plain_to_infusion_int_loop (body ++ NL :: rest) b i (counter + 1) = none :=
        fun b i => ih b i (counter + 1) hb (by omega) (by omega)
      rw [int_incr_lt _ hlast]
      by_cases hd : (!isdigit c) = true
      · rw [if_pos hd]
        cases store infusion ic c with
        | none => rfl
        | some infusion1 =>
          cases int_incr ic with
          | none => rfl
          | some ic1 => exact hrec _ _
      · rw [if_neg hd]
        exact hrec _ _
    · rw [int_incr_ge counter (by omega)]
      by_cases hd : (!isdigit c) = true
      · rw [if_pos hd]
        cases store infusion ic c with
        | none => rfl
        | some infusion1 =>
          cases int_incr ic with
          | none => rfl
          | some ic1 => rfl
      · rw [if_neg hd]

theorem plain_to_infusion_int_overflow (body rest : List Byte) (num : Nat)
    (hbody : ∀ x ∈ body, x ≠ NL) (h : INT_MAX < body.length) :
    plain_to_infusion_int (body ++ NL :: rest) num = none :=
  plain_to_infusion_int_loop_overflow body rest _ 0 0 hbody (Nat.zero_le _) (by omega)

/-- The cursor that `find_digit` leaves is further on in the same line. -/
theorem find_digit_suffix : ∀ (cur r : List Byte), find_digit cur = some r → ∃ p, cur = p ++ r := by
  intro cur
  induction cur with
  | nil => intro r h; simp [find_digit] at h
  | cons c rest ih =>
    intro r h
    cases rest with
    | nil =>
      by_cases hd : (!isdigit c) = true
      · simp [find_digit, hd] at h
      · simp only [find_digit, hd, if_false, Option.some.injEq, Bool.false_eq_true] at h
        exact ⟨[], by rw [← h]; rfl⟩
    | cons d rest1 =>
      by_cases hd : (!isdigit c) = true
      · by_cases hn : d = NL
        · simp only [find_digit, hd, if_true, hn, Option.some.injEq] at h
          exact ⟨[c], by rw [← h, hn]; rfl⟩
        · rw [find_digit, if_pos hd] at h
          simp only [hn, if_false] at h
          obtain ⟨p, hp⟩ := ih r h
          exact ⟨c :: p, by rw [hp]; rfl⟩
      · rw [find_digit, if_neg hd] at h
        simp only [Option.some.injEq] at h
        exact ⟨[], by rw [← h]; rfl⟩

/-- The cursor that `get_digits` leaves is further on in the same line, by at
least one byte, and still inside it. -/
theorem get_digits_suffix (cur r : List Byte) (v : Int) (h : get_digits cur = some (v, r)) :
    ∃ p, cur = p ++ r ∧ p ≠ [] ∧ r ≠ [] := by
  unfold get_digits at h
  cases hs : strtol cur with
  | none => rw [hs] at h; simp at h
  | some vt =>
    obtain ⟨v1, temp⟩ := vt
    rw [hs] at h
    simp only at h
    by_cases hl : temp.length ≠ cur.length
    · rw [if_pos hl] at h
      simp only [Option.some.injEq, Prod.mk.injEq] at h
      obtain ⟨_, rfl⟩ := h
      unfold strtol at hs
      simp only at hs
      split at hs
      · simp at hs
      · rename_i hend
        have hsfx : ∃ p, cur = p ++ temp ∧ temp ≠ [] := by
          split at hs
          · simp only [Option.some.injEq, Prod.mk.injEq] at hs
            exact absurd (by rw [hs.2]) hl
          · have key : ∀ q : List Byte,
                (∃ p0, cur = p0 ++ q) → ∃ p, cur = p ++ q.dropWhile isdigit := by
              intro q ⟨p0, hp0⟩
              exact ⟨p0 ++ q.takeWhile isdigit, by
                rw [List.append_assoc, List.takeWhile_append_dropWhile]; exact hp0⟩
            have hs1 : ∃ p0, cur = p0 ++ cur.dropWhile isspace :=
              ⟨cur.takeWhile isspace, (List.takeWhile_append_dropWhile _ _).symm⟩
            have hsigned : ∃ p0, cur = p0 ++
                (match cur.dropWhile isspace with
                  | c :: rest => if c.val = 45 then (true, rest)
                      else if c.val = 43 then (false, rest) else (false, cur.dropWhile isspace)
                  | [] => (false, cur.dropWhile isspace)).2 := by
              cases hdw : cur.dropWhile isspace with
              | nil => exact ⟨cur, by simp⟩
              | cons c rest =>
                obtain ⟨p0, hp0⟩ := hs1
                rw [hdw] at hp0
                simp only
                by_cases h45 : c.val = 45
                · rw [if_pos h45]; exact ⟨p0 ++ [c], by rw [hp0]; simp⟩
                · rw [if_neg h45]
                  by_cases h43 : c.val = 43
                  · rw [if_pos h43]; exact ⟨p0 ++ [c], by rw [hp0]; simp⟩
                  · rw [if_neg h43]; exact ⟨p0, hp0⟩
            obtain ⟨p, hp⟩ := key _ hsigned
            split at hs
            · simp only [Option.some.injEq, Prod.mk.injEq] at hs
              rw [← hs.2]
              exact ⟨p, hp, hend⟩
            · simp only [Option.some.injEq, Prod.mk.injEq] at hs
              rw [← hs.2]
              exact ⟨p, hp, hend⟩
        obtain ⟨p, hp, hne⟩ := hsfx
        refine ⟨p, hp, ?_, hne⟩
        intro hnil
        rw [hnil] at hp
        exact hl (by rw [hp]; rfl)
    · rw [if_neg hl] at h
      simp at h

/-- While the rest of the line has at most `INT_MAX + 1` bytes more than rows
were written, the counter of `plain_to_raw` does not overflow. -/
theorem plain_to_raw_int_loop_eq :
    ∀ (fuel : Nat) (remaining : List Byte) (new_line : Buf) (raw_counter width : Nat),
      raw_counter + remaining.length ≤ INT_MAX + 1 →
      plain_to_raw_int_loop fuel remaining new_line raw_counter width
        = plain_to_raw_loop fuel remaining new_line raw_counter width := by
  intro fuel
  induction fuel with
  | zero => intro _ _ _ _ _; rfl
  | succ fuel ih =>
    intro remaining new_line rc width hlen
    cases remaining with
    | nil => rfl
    | cons c rest =>
      rw [plain_to_raw_int_loop, plain_to_raw_loop]
      by_cases hc : c ≠ NL
      · rw [if_pos hc, if_pos hc]
        cases hf : find_digit (c :: rest) with
        | none => rfl
        | some cur =>
          cases cur with
          | nil => rfl
          | cons d rest1 =>
            simp only
            by_cases hd : d = NL
            · rw [if_pos hd, if_pos hd]
            · rw [if_neg hd, if_neg hd]
              cases hg : get_digits (d :: rest1) with
              | none => rfl
              | some vr =>
                obtain ⟨digits, r⟩ := vr
                simp only
                cases store new_line rc (toChar digits) with
                | none => rfl
                | some new_line1 =>
                  simp only
                  obtain ⟨p, hp⟩ := find_digit_suffix _ _ hf
                  obtain ⟨q, hq, hqne, hrne⟩ := get_digits_suffix _ _ _ hg
                  have hl1 : (c :: rest).length = p.length + (d :: rest1).length := by
                    rw [hp, List.length_append]
                  have hl2 : (d :: rest1).length = q.length + r.length := by
                    rw [hq, List.length_append]
                  have hq1 : 1 ≤ q.length := by
                    cases q with
                    | nil => exact absurd rfl hqne
                    | cons _ _ => simp
                  have hr1 : 1 ≤ r.length := by
                    cases r with
                    | nil => exact absurd rfl hrne
                    | cons _ _ => simp
                  rw [int_incr_lt rc (by omega)]
                  exact ih _ _ _ _ (by omega)
      · rw [if_neg hc, if_neg hc]

theorem plain_to_raw_int_eq (line : List Byte) (num width : Nat)
    (h : line.length ≤ INT_MAX + 1) :
    plain_to_raw_int line num width = plain_to_raw line num width :=
  plain_to_raw_int_loop_eq _ line _ 0 width (by omega)

theorem get_atom_int_eq (line : List Byte) (num : Nat) (h : line.length ≤ INT_MAX + 1) :
    get_atom_int line num = get_atom line num := by
  rw [get_atom_int, get_atom, plain_to_infusion_int_eq line num h]

theorem ShortLines_readaline (fp : List Byte) (h : ShortLines fp) (num : Nat)
    (line : Option (List Byte)) (fp1 : List Byte) (hr : readaline fp = some (num, line, fp1)) :
    (∀ l, line = some l → l.length ≤ INT_MAX + 1) ∧ ShortLines fp1 := by
  obtain ⟨ls, tail, rfl, hls, htail⟩ := h
  cases ls with
  | nil =>
    rw [show streamOf [] ++ tail = tail from rfl, readaline_eof tail htail] at hr
    simp only [Option.some.injEq, Prod.mk.injEq] at hr
    obtain ⟨_, rfl, rfl⟩ := hr
    exact ⟨by intro l hl; simp at hl, [], [], rfl, by simp, by simp⟩
  | cons l ls =>
    rw [readaline_streamOf_cons l ls tail (hls l (by simp)).1] at hr
    simp only [Option.some.injEq, Prod.mk.injEq] at hr
    obtain ⟨_, rfl, rfl⟩ := hr
    refine ⟨?_, ls, tail, rfl, fun m hm => hls m (by simp [hm]), htail⟩
    intro l1 hl1
    simp only [Option.some.injEq] at hl1
    have := (hls l (by simp)).2
    rw [← hl1]
    simp
    omega

theorem Table_get_mem (table : Table) (key : Atom) (v : List Byte)
    (h : Table_get table key = some v) : ∃ e ∈ table, e.2 = v := by
  induction table with
  | nil => simp [Table_get] at h
  | cons e table ih =>
    obtain ⟨k, w⟩ := e
    rw [Table_get] at h
    by_cases hk : k = key
    · rw [if_pos hk] at h
      simp only [Option.some.injEq] at h
      exact ⟨(k, w), by simp, h⟩
    · rw [if_neg hk] at h
      obtain ⟨e, he, hv⟩ := ih h
      exact ⟨e, by simp [he], hv⟩

theorem Table_put_short (table : Table) (key : Atom) (value : List Byte) (bound : Nat)
    (ht : ∀ e ∈ table, e.2.length ≤ bound) (hv : value.length ≤ bound) :
    (∀ e ∈ (Table_put table key value).1, e.2.length ≤ bound) ∧
    ∀ p, (Table_put table key value).2 = some p → p.length ≤ bound := by
  unfold Table_put
  cases hg : Table_get table key with
  | none =>
    simp only
    refine ⟨?_, by intro p hp; simp at hp⟩
    intro e he
    rcases List.mem_cons.1 he with rfl | he
    · exact hv
    · exact ht e he
  | some previous =>
    simp only
    refine ⟨?_, ?_⟩
    · intro e he
      obtain ⟨e0, he0, rfl⟩ := List.mem_map.1 he
      by_cases hk : e0.1 = key
      · rw [if_pos hk]; exact hv
      · rw [if_neg hk]; exact ht e0 he0
    · intro p hp
      simp only [Option.some.injEq] at hp
      obtain ⟨e, he, hev⟩ := Table_get_mem table key previous hg
      rw [← hp, ← hev]
      exact ht e he

theorem add_duplicates_int_eq (original_repeat : Option (List Byte)) (num width : Nat)
    (my_table : Table) (my_list : List Buf) (infusion_atom : Atom)
    (ho : ∀ o, original_repeat = some o → o.length ≤ INT_MAX + 1)
    (ht : ∀ e ∈ my_table, e.2.length ≤ INT_MAX + 1) :
    add_duplicates_int original_repeat num width my_table my_list infusion_atom
      = add_duplicates original_repeat num width my_table my_list infusion_atom := by
  unfold add_duplicates_int add_duplicates
  cases original_repeat with
  | none => rfl
  | some original =>
    simp only
    rw [plain_to_raw_int_eq original num width (ho original rfl)]
    cases plain_to_raw original num width with
    | none => rfl
    | some r =>
      obtain ⟨original_raw, width1⟩ := r
      simp only
      cases hg : Table_get my_table infusion_atom with
      | none => rfl
      | some second_repeat =>
        simp only
        obtain ⟨e, he, hev⟩ := Table_get_mem my_table infusion_atom second_repeat hg
        rw [plain_to_raw_int_eq second_repeat num width1 (by rw [← hev]; exact ht e he)]

theorem add_list_int_eq :
    ∀ (fuel : Nat) (line : Option (List Byte)) (num : Nat) (my_list : List Buf)
      (infusion_atom : Atom) (fp : List Byte) (width : Nat),
      (∀ l, line = some l → l.length ≤ INT_MAX + 1) → ShortLines fp →
      add_list_int fuel line num my_list infusion_atom fp width
          = add_list fuel line num my_list infusion_atom fp width ∧
        ∀ r, add_list fuel line num my_list infusion_atom fp width = some r →
          ShortLines r.2.2.1 := by
  intro fuel
  induction fuel with
  | zero =>
    intro line num my_list a fp width _ _
    exact ⟨rfl, by intro r hr; simp [add_list] at hr⟩
  | succ fuel ih =>
    intro line num my_list a fp width hline hfp
    cases line with
    | none =>
      refine ⟨rfl, ?_⟩
      intro r hr
      simp only [add_list, Option.some.injEq] at hr
      rw [← hr]
      exact hfp
    | some line =>
      have hl := hline line rfl
      rw [add_list_int, add_list, get_atom_int_eq line num hl,
        plain_to_raw_int_eq line num width hl]
      cases get_atom line num with
      | none => exact ⟨rfl, by intro r hr; simp at hr⟩
      | some atom =>
        simp only
        have hstep : ∀ (my_list1 : List Buf) (width1 : Nat),
            (match readaline fp with
              | none => none
              | some (num1, line1, fp1) => add_list_int fuel line1 num1 my_list1 a fp1 width1)
              = (match readaline fp with
                | none => none
                | some (num1, line1, fp1) => add_list fuel line1 num1 my_list1 a fp1 width1) ∧
            ∀ r, (match readaline fp with
                | none => none
                | some (num1, line1, fp1) => add_list fuel line1 num1 my_list1 a fp1 width1)
                = some r → ShortLines r.2.2.1 := by
          intro my_list1 width1
          cases hr : readaline fp with
          | none => exact ⟨rfl, by intro r hr; simp at hr⟩
          | some t =>
            obtain ⟨num1, line1, fp1⟩ := t
            simp only
            obtain ⟨h1, h2⟩ := ShortLines_readaline fp hfp num1 line1 fp1 hr
            exact ih line1 num1 my_list1 a fp1 width1 h1 h2
        by_cases hat : atom = a
        · simp only [hat, if_true]
          cases plain_to_raw line num width with
          | none => exact ⟨rfl, by intro r hr; simp at hr⟩
          | some p =>
            obtain ⟨repeat_raw, width1⟩ := p
            exact hstep _ _
        · simp only [hat, if_false]
          exact hstep _ _

theorem restoration_loop_int_eq :
    ∀ (fuel : Nat) (line : Option (List Byte)) (num width : Nat) (my_table : Table)
      (my_list : List Buf) (fp : List Byte) (out : Output),
      (∀ l, line = some l → l.length ≤ INT_MAX + 1) →
      (∀ e ∈ my_table, e.2.length ≤ INT_MAX + 1) → ShortLines fp →
      restoration_loop_int fuel line num width my_table my_list fp out
        = restoration_loop fuel line num width my_table my_list fp out := by
  intro fuel
  induction fuel with
  | zero => intro _ _ _ _ _ _ _ _ _ _; rfl
  | succ fuel ih =>
    intro line num width my_table my_list fp out hline ht hfp
    cases line with
    | none => rfl
    | some line =>
      have hl := hline line rfl
      rw [restoration_loop_int, restoration_loop, get_atom_int_eq line num hl]
      cases get_atom line num with
      | none => rfl
      | some atom =>
        simp only
        obtain ⟨hput1, hput2⟩ := Table_put_short my_table atom line (INT_MAX + 1) ht hl
        rw [add_duplicates_int_eq _ num width _ my_list atom hput2 hput1]
        cases add_duplicates (Table_put my_table atom line).2 num width
            (Table_put my_table atom line).1 my_list atom with
        | none => rfl
        | some r =>
          obtain ⟨found, width1, my_list1⟩ := r
          cases hr : readaline fp with
          | none => cases found <;> rfl
          | some t =>
            obtain ⟨num1, line1, fp1⟩ := t
            obtain ⟨h1, h2⟩ := ShortLines_readaline fp hfp num1 line1 fp1 hr
            cases found with
            | false =>
              simp only
              exact ih line1 num1 width1 _ my_list1 fp1 out h1 hput1 h2
            | true =>
              simp only
              obtain ⟨hal, hfp2⟩ := add_list_int_eq (fp1.length + 2) line1 num1 my_list1 atom fp1
                width1 h1 h2
              rw [hal]
              cases hadd : add_list (fp1.length + 2) line1 num1 my_list1 atom fp1 width1 with
              | none => rfl
              | some q =>
                obtain ⟨num2, my_list2, fp2, width2⟩ := q
                simp only
                have hs2 : ShortLines fp2 := hfp2 _ hadd
                cases print_image my_list2 width2 with
                | none => rfl
                | some pr =>
                  obtain ⟨printed, my_list3⟩ := pr
                  simp only
                  cases hr3 : readaline fp2 with
                  | none => rfl
                  | some t3 =>
                    obtain ⟨num3, line3, fp3⟩ := t3
                    simp only
                    obtain ⟨h31, h32⟩ := ShortLines_readaline fp2 hs2 num3 line3 fp3 hr3
                    exact ih line3 num3 width2 _ my_list3 fp3 _ h31 hput1 h32

/-- On a stream whose lines have at most `INT_MAX` bytes before the newline no
`int` counter overflows: the run of `restoration` with bounded counters is the
run with unbounded ones. -/
theorem restoration_int_eq (fp : List Byte) (h : ShortLines fp) :
    restoration_int fp = restoration fp := by
  rw [restoration_int, restoration]
  cases hr : readaline fp with
  | none => rfl
  | some t =>
    obtain ⟨num, line, fp1⟩ := t
    simp only
    obtain ⟨h1, h2⟩ := ShortLines_readaline fp h num line fp1 hr
    exact restoration_loop_int_eq _ line num 0 [] [] fp1 _ h1 (by simp) h2

/-- The first line of the stream has more than `INT_MAX` bytes before its
newline: the counter of `plain_to_infusion` overflows in the first call of
`get_atom`. -/
theorem restoration_int_overflow (body rest : List Byte) (hbody : ∀ x ∈ body, x ≠ NL)
    (h : INT_MAX < body.length) : restoration_int (body ++ NL :: rest) = none := by
  rw [restoration_int, readaline_line body rest hbody]
  simp only [List.length_append, List.length_cons]
  rw [restoration_loop_int, get_atom_int, show body ++ [NL] = body ++ NL :: [] from rfl,
    plain_to_infusion_int_overflow body [] _ hbody h]

/-! ## The decoder on a heap -/

theorem written_length_le (buf : Buf) : (written buf).length ≤ buf.length := by
  induction buf with
  | nil => simp [written]
  | cons x buf ih =>
    cases x with
    | none => simp [written]
    | some c => simp only [written, List.length_cons]; omega

theorem written_drop (buf : Buf) :
    ∀ offset, offset ≤ (written buf).length →
      written (buf.drop offset) = (written buf).drop offset := by
  induction buf with
  | nil => intro offset _; simp [written]
  | cons x buf ih =>
    intro offset hoff
    cases offset with
    | zero => rfl
    | succ offset =>
      cases x with
      | none => simp [written] at hoff
      | some c =>
        simp only [written, List.length_cons] at hoff
        simp only [List.drop_succ_cons, written]
        exact ih offset (by omega)

theorem heap_cursor_line (heap : Heap) (buf blk : Buf) (line offset : Nat)
    (hline : heap[line]? = some blk) (hoff : offset ≤ (written blk).length) :
    heap_cursor (heap ++ [buf]) line offset = some ((written blk).drop offset) := by
  have hlt : line < heap.length := by
    by_contra hge
    rw [List.getElem?_eq_none (by omega)] at hline
    simp at hline
  have hle := written_length_le blk
  rw [heap_cursor, List.getElem?_append_left hlt, hline]
  simp only
  rw [if_pos (by omega), written_drop blk offset hoff]

theorem heap_store_row (heap : Heap) (buf : Buf) (i : Nat) (c : Byte) :
    heap_store (heap ++ [buf]) heap.length i c
      = (store buf i c).map (fun buf1 => heap ++ [buf1]) := by
  rw [heap_store]
  simp only [List.getElem?_concat_length]
  cases store buf i c with
  | none => rfl
  | some buf1 => simp

/-- On a heap whose block `line` is `blk`, the loop on the heap does what the
loop on the written bytes of `blk` does, and it changes the block of the row
only. -/
theorem plain_to_raw_heap_loop_link (heap : Heap) (line : Nat) (blk : Buf)
    (hline : heap[line]? = some blk) :
    ∀ (fuel offset : Nat) (buf : Buf) (raw_counter width : Nat),
      offset ≤ (written blk).length →
      plain_to_raw_heap_loop fuel (heap ++ [buf]) line offset heap.length raw_counter width
        = (plain_to_raw_loop fuel ((written blk).drop offset) buf raw_counter width).map
            (fun r => (heap ++ [r.1], r.2)) := by
  intro fuel
  induction fuel with
  | zero => intro _ _ _ _ _; rfl
  | succ fuel ih =>
    intro offset buf rc width hoff
    rw [plain_to_raw_heap_loop, heap_cursor_line heap buf blk line offset hline hoff]
    cases hcur : (written blk).drop offset with
    | nil => rfl
    | cons c rest =>
      rw [plain_to_raw_loop]
      simp only
      by_cases hc : c ≠ NL
      · rw [if_pos hc, if_pos hc]
        cases hf : find_digit (c :: rest) with
        | none => rfl
        | some cur =>
          cases cur with
          | nil => rfl
          | cons d rest1 =>
            simp only
            by_cases hd : d = NL
            · rw [if_pos hd, if_pos hd]; rfl
            · rw [if_neg hd, if_neg hd]
              cases hg : get_digits (d :: rest1) with
              | none => rfl
              | some vr =>
                obtain ⟨digits, r⟩ := vr
                simp only
                rw [heap_store_row]
                cases store buf rc (toChar digits) with
                | none => rfl
                | some buf1 =>
                  simp only [Option.map_some']
                  obtain ⟨p, hp⟩ := find_digit_suffix _ _ hf
                  obtain ⟨q, hq, _, _⟩ := get_digits_suffix _ _ _ hg
                  have hsplit : c :: rest = (p ++ q) ++ r := by
                    rw [hp, hq, List.append_assoc]
                  have hlen : (c :: rest).length - r.length = (p ++ q).length := by
                    rw [hsplit, List.length_append]; omega
                  have hdrop :
                      (written blk).drop (offset + ((c :: rest).length - r.length)) = r := by
                    rw [hlen, ← List.drop_drop, hcur, hsplit, List.drop_left]
                  have hoff1 : offset + ((c :: rest).length - r.length)
                      ≤ (written blk).length := by
                    have h1 : ((written blk).drop offset).length
                        = (written blk).length - offset := List.length_drop _ _
                    rw [hcur] at h1
                    omega
                  rw [ih _ buf1 _ _ hoff1, hdrop]
      · rw [if_neg hc, if_neg hc]; rfl

/-- The function on the heap returns, in a new block, what the loop on the
written bytes of the line returns, and leaves every other block as it was. -/
theorem plain_to_raw_heap_link (heap : Heap) (line : Nat) (blk : Buf) (num width : Nat)
    (hline : heap[line]? = some blk) :
    plain_to_raw_heap heap line num width
      = (plain_to_raw_loop (blk.length + 1) (written blk) (malloc num) 0 width).map
          (fun r => (heap ++ [r.1], heap.length, r.2)) := by
  rw [plain_to_raw_heap, hline]
  simp only [heap_malloc]
  rw [plain_to_raw_heap_loop_link heap line blk hline _ 0 _ 0 width (Nat.zero_le _),
    List.drop_zero]
  cases plain_to_raw_loop (blk.length + 1) (written blk) (malloc num) 0 width with
  | none => rfl
  | some r => rfl

theorem plain_to_raw_heap_eq (heap : Heap) (line : Nat) (blk : Buf) (body rest : List Byte)
    (num width : Nat) (hline : heap[line]? = some blk)
    (hblk : written blk = body ++ NL :: rest) (hbody : ∀ x ∈ body, x ≠ NL)
    (hnum : (digitRuns body).length ≤ num) :
    plain_to_raw_heap heap line num width
      = some (heap ++ [rowBuf body num], heap.length, newWidth body width) := by
  have hle := written_length_le blk
  rw [hblk] at hle
  simp only [List.length_append, List.length_cons] at hle
  have := plain_to_raw_loop_spec rest (blk.length + 1) body [] (malloc num) width hbody
    (by omega) (by rw [malloc_length]; exact hnum)
  rw [plain_to_raw_heap_link heap line blk num width hline, hblk]
  simp only [List.map_nil, List.nil_append, List.length_nil, Nat.zero_add] at this
  rw [this]
  simp [rowBuf, newWidth, malloc]

/-- A call that completes leaves every block that was there as it was. -/
theorem plain_to_raw_heap_frame (heap : Heap) (line : Nat) (blk : Buf) (num width : Nat)
    (hline : heap[line]? = some blk) (heap1 : Heap) (p w : Nat)
    (h : plain_to_raw_heap heap line num width = some (heap1, p, w)) :
    p = heap.length ∧ heap1.length = heap.length + 1 ∧
      ∀ b, b < heap.length → heap1[b]? = heap[b]? := by
  rw [plain_to_raw_heap_link heap line blk num width hline] at h
  cases hr : plain_to_raw_loop (blk.length + 1) (written blk) (malloc num) 0 width with
  | none => rw [hr] at h; simp at h
  | some r =>
    rw [hr] at h
    simp only [Option.map_some', Option.some.injEq, Prod.mk.injEq] at h
    obtain ⟨rfl, rfl, _⟩ := h
    exact ⟨rfl, by simp, fun b hb => List.getElem?_append_left hb⟩

/-! ## The claims -/

set_option maxRecDepth 100000

/-- C2: the row decoder.  For a line whose bytes before the newline are
`body`, with at least one digit run and every maximal digit run of decimal
value at most 255, decoded into a buffer of `num` bytes that has room for the
runs, `plain_to_raw` leaves in the buffer one byte per maximal digit run, in
order, whose values are the decimal values of the runs, and sets the width to
the number of runs. -/
theorem plain_to_raw_decodes (body rest : List Byte) (num width : Nat)
    (hbody : ∀ x ∈ body, x ≠ NL) (hruns : digitRuns body ≠ [])
    (hval : ∀ r ∈ digitRuns body, decimal r ≤ 255) (hnum : (digitRuns body).length ≤ num) :
    ∃ row : List Byte,
      row.map Fin.val = (digitRuns body).map decimal ∧
      row.length = (digitRuns body).length ∧
      plain_to_raw (body ++ NL :: rest) num width
        = some (row.map some ++ malloc (num - (digitRuns body).length),
            (digitRuns body).length) := by
  refine ⟨decodeRow body, decodeRow_val body hval, by simp [decodeRow], ?_⟩
  rw [plain_to_raw_eq body rest num width hbody hnum]
  have : (digitRuns body).length ≠ 0 := by
    intro h; exact hruns (List.length_eq_zero.1 h)
  rw [if_neg this]

/-- C2, on the line `" 12a007-3\n"`: the row is 12 7 3 and the width 3. -/
theorem plain_to_raw_decodes_witness :
    ∃ row : List Byte,
      row.map Fin.val = [12, 7, 3] ∧ row.length = 3 ∧
      plain_to_raw ([32, 49, 50, 97, 48, 48, 55, 45, 51] ++ NL :: []) 10 0
        = some (row.map some ++ malloc (10 - 3), 3) :=
  plain_to_raw_decodes [32, 49, 50, 97, 48, 48, 55, 45, 51] [] 10 0
    (by decide) (by decide) (by decide) (by decide)

/-- C4: the growable line reader.  On a stream that starts with `k` bytes
none of which is a newline, followed by a newline, `readaline` returns the
length `k + 1` and a line whose first `k` bytes are those bytes and whose
last byte is the newline, and leaves the rest of the stream unread; `k` is
arbitrary, so the buffer of initial capacity 1000 may have grown any number
of times. -/
theorem readaline_reads_line (bytes rest : List Byte) (hbytes : ∀ b ∈ bytes, b ≠ NL) :
    readaline (bytes ++ NL :: rest) = some (bytes.length + 1, some (bytes ++ [NL]), rest) :=
  readaline_line bytes rest hbytes

/-- C4, on 10,000 bytes `'A'` followed by a newline: the length is 10,001. -/
theorem readaline_reads_line_witness :
    readaline (List.replicate 10000 65 ++ NL :: [])
      = some (10001, some (List.replicate 10000 65 ++ [NL]), []) := by
  have h := readaline_reads_line (List.replicate 10000 65) []
    (by intro b hb; rw [List.eq_of_mem_replicate hb]; decide)
  rw [List.length_replicate] at h
  exact h

/-- C9: the image emitter.  For rows appended in the order `appended` (so
that the list handed over holds them in reverse), each of at least `w` bytes,
`print_image` writes `"P5\n"`, `w` in decimal, a space, the number of rows in
decimal, `"\n"`, `"255\n"`, and then the first `w` bytes of each row in the
order of appending, nothing between and nothing after; the body has `w * h`
bytes, and the list is empty at the return. -/
theorem print_image_format (appended : List Buf) (w : Nat)
    (hrows : ∀ row ∈ appended, w ≤ row.length) :
    print_image appended.reverse w
        = some (([80, 53, 10] ++ printf_d w ++ [32] ++ printf_d appended.length ++ [10]
              ++ [50, 53, 53, 10]).map some ++ rowsBytes w appended, []) ∧
      (rowsBytes w appended).length = w * appended.length := by
  have h255 : printf_d 255 = [50, 53, 53] := by decide
  refine ⟨?_, rowsBytes_length w appended hrows⟩
  rw [print_image_spec appended.reverse w (fun row hr => hrows row (List.mem_reverse.1 hr))]
  simp [header, h255]

/-- C9, on the rows 1 2 (in a buffer of three bytes) and 3 4, with width 2. -/
theorem print_image_format_witness :
    print_image [[some 3, some 4], [some 1, some 2, none]] 2
        = some ([80, 53, 10, 50, 32, 50, 10, 50, 53, 53, 10, 1, 2, 3, 4].map some, []) ∧
      (rowsBytes 2 [[some 1, some 2, none], [some 3, some 4]]).length = 2 * 2 :=
  print_image_format [[some 1, some 2, none], [some 3, some 4]] 2 (by decide)

/-- C11, refuted: on the stream `"AB"`, which ends without a newline,
`readaline` returns the end-of-input signal, `NULL` and the length 0, and not
a line of length 3. -/
theorem readaline_unterminated_counterexample :
    readaline [65, 66] = some (0, none, []) := by
  decide

/-- C11, amended: on a stream that ends after `k >= 1` bytes, none of them a
newline, without a final newline, `readaline` reads to the end of the stream
and returns the end-of-input signal: `*datapp` is `NULL`, the length is 0, and
the bytes of the partial line are dropped with the freed buffer. -/
theorem readaline_unterminated_dropped (c : Byte) (todo : List Byte) (hc : c ≠ NL)
    (htodo : ∀ b ∈ todo, b ≠ NL) :
    readaline (c :: todo) = some (0, none, []) := by
  apply readaline_eof
  intro x hx
  rcases List.mem_cons.1 hx with rfl | hx
  · exact hc
  · exact htodo x hx

/-- C11, amended, on the stream `"AB"`. -/
theorem readaline_unterminated_dropped_witness :
    readaline (65 :: [66]) = some (0, none, []) :=
  readaline_unterminated_dropped 65 [66] (by decide) (by decide)

/-- C12, refuted: the line `"300\n"` holds a digit run of value 300;
`plain_to_raw` does not fail but emits the byte 44, which is 300 modulo 256,
and sets the width to 1. -/
theorem out_of_range_counterexample :
    digitRuns [51, 48, 48] = [[51, 48, 48]] ∧ decimal [51, 48, 48] = 300 ∧
    plain_to_raw [51, 48, 48, 10] 4 0 = some ([some 44, none, none, none], 1) := by
  decide

/-- C12, amended: the value of a digit run is not checked.  For a line that
holds a digit run of decimal value above 255, decoded into a buffer that has
room for the runs, `plain_to_raw` completes and emits for every run one byte,
the decimal value of the run, clamped to the largest `long`, modulo 256; so
the row differs from the decimal values of the runs. -/
theorem plain_to_raw_out_of_range (body rest : List Byte) (num width : Nat)
    (hbody : ∀ x ∈ body, x ≠ NL) (hnum : (digitRuns body).length ≤ num)
    (hbig : ∃ r ∈ digitRuns body, 255 < decimal r) :
    ∃ row : List Byte,
      plain_to_raw (body ++ NL :: rest) num width
        = some (row.map some ++ malloc (num - (digitRuns body).length),
            (digitRuns body).length) ∧
      row.map Fin.val
        = (digitRuns body).map (fun r => min (decimal r) 9223372036854775807 % 256) ∧
      row.map Fin.val ≠ (digitRuns body).map decimal := by
  obtain ⟨r, hr, hgt⟩ := hbig
  have hne : (digitRuns body).length ≠ 0 := by
    intro h
    rw [List.length_eq_zero.1 h] at hr
    simp at hr
  refine ⟨decodeRow body, ?_, decodeRow_val_clamp body, ?_⟩
  · rw [plain_to_raw_eq body rest num width hbody hnum, if_neg hne]
  · intro heq
    rw [decodeRow, List.map_map] at heq
    have := (List.map_inj_left.1 heq) r hr
    simp only [Function.comp] at this
    have hlt := (pixel r).isLt
    omega

/-- C12, amended, on the line `"7 300\n"`: the row is 7 44. -/
theorem plain_to_raw_out_of_range_witness :
    ∃ row : List Byte,
      plain_to_raw ([55, 32, 51, 48, 48] ++ NL :: []) 6 0
        = some (row.map some ++ malloc (6 - (digitRuns [55, 32, 51, 48, 48]).length),
            (digitRuns [55, 32, 51, 48, 48]).length) ∧
      row.map Fin.val = [7, 44] ∧
      row.map Fin.val ≠ [7, 300] :=
  plain_to_raw_out_of_range [55, 32, 51, 48, 48] [] 6 0 (by decide) (by decide)
    ⟨[51, 48, 48], by decide, by decide⟩

/-- C13, the code at the failing input: called on the line `"a\n"` with the
width variable at 1, `plain_to_raw` writes no byte and leaves the width at 1
instead of reporting 0.  The call occurs in the run of `restoration` on the
stream `"1a\na\n"`, whose header then carries the width 1 for a second row
that has no byte. -/
theorem plain_to_raw_no_digit_keeps_width :
    plain_to_raw [97, 10] 2 1 = some ([none, none], 1) ∧
    restoration (streamOf [[49, 97], [97]])
      = some ⟨[80, 53, 10, 49, 32, 50, 10, 50, 53, 53, 10].map some ++ [some 1, none],
          [([[none, none], [some 1, none]], 1)]⟩ := by
  decide

/-- C16: stream splitting and end of input.  On the stream made of `n`
newline-terminated lines, the first `i` calls of `readaline`, for every
`i <= n`, return the first `i` lines in order, each with its length, and leave
unread exactly the stream of the other lines; the call after the `n`-th one
returns `NULL` and the length 0; and the lines returned, put end to end, are
the stream. -/
theorem readaline_splits_stream (ls : List (List Byte))
    (hls : ∀ l ∈ ls, ∀ x ∈ l, x ≠ NL) :
    (∀ i, i ≤ ls.length →
      read_calls i (streamOf ls)
        = some ((ls.take i).map (fun l => (l.length + 1, some (l ++ [NL]))),
            streamOf (ls.drop i))) ∧
    read_calls (ls.length + 1) (streamOf ls)
      = some (ls.map (fun l => (l.length + 1, some (l ++ [NL]))) ++ [(0, none)], []) ∧
    (ls.map (fun l => l ++ [NL])).flatten = streamOf ls := by
  refine ⟨?_, ?_, streamOf_flatten ls⟩
  · intro i hi
    have h := read_calls_lines (ls.drop i) (ls.take i)
      (fun l hl => hls l (List.mem_of_mem_take hl))
    rw [List.take_append_drop, List.length_take, Nat.min_eq_left hi] at h
    exact h
  · have h := read_calls_lines [] ls hls
    rw [List.append_nil] at h
    refine read_calls_append (streamOf []) 1 ls.length (streamOf ls) _ [(0, none)] [] h ?_
    simp [read_calls, streamOf, readaline_eof [] (by simp)]

/-- C16, on the stream `"ab\n\ncd\n"` of the three lines `"ab"`, `""`, `"cd"`. -/
theorem readaline_splits_stream_witness :
    (∀ i, i ≤ 3 →
      read_calls i (streamOf [[97, 98], [], [99, 100]])
        = some (([[97, 98], [], [99, 100]].take i).map (fun l => (l.length + 1, some (l ++ [NL]))),
            streamOf ([[97, 98], [], [99, 100]].drop i))) ∧
    read_calls (3 + 1) [97, 98, 10, 10, 99, 100, 10]
      = some ([(3, some [97, 98, 10]), (1, some [10]), (3, some [99, 100, 10]), (0, none)], []) ∧
    ([[97, 98, 10], [10], [99, 100, 10]] : List (List Byte)).flatten
      = [97, 98, 10, 10, 99, 100, 10] :=
  readaline_splits_stream [[97, 98], [], [99, 100]] (by decide)

/-- C18: idempotent decode.  The heap holds the line in its block `line`: the
written bytes of that block are the bytes `body`, without a newline, then a
newline, then `rest`.  A call of `plain_to_raw` on the line, the `num` bytes of
the row having room for the digit runs, completes: it adds the block of the
row to the heap and leaves every block that was there, the line among them,
byte for byte as it was.  A second call on the heap that the first call left,
from the same width, completes and returns a row with the same bytes and the
same width, and again changes no block.  The row holds the decode of the line
and is the row that the function on the bytes of the line returns.  Whatever
`num` and the width are, a call that completes leaves every block that was
there as it was. -/
theorem plain_to_raw_idempotent (heap : Heap) (line : Nat) (blk : Buf) (body rest : List Byte)
    (num width : Nat) (hline : heap[line]? = some blk)
    (hblk : written blk = body ++ NL :: rest) (hbody : ∀ x ∈ body, x ≠ NL)
    (hnum : (digitRuns body).length ≤ num) :
    (∃ (row : Buf) (w : Nat),
      plain_to_raw_heap heap line num width = some (heap ++ [row], heap.length, w) ∧
      (∀ b, b < heap.length → (heap ++ [row])[b]? = heap[b]?) ∧
      (heap ++ [row])[line]? = some blk ∧
      plain_to_raw_heap (heap ++ [row]) line num width
        = some (heap ++ [row] ++ [row], heap.length + 1, w) ∧
      (∀ b, b < heap.length → (heap ++ [row] ++ [row])[b]? = heap[b]?) ∧
      row.length = num ∧ written row = decodeRow body ∧ w = newWidth body width ∧
      plain_to_raw (body ++ NL :: rest) num width = some (row, w)) ∧
    ∀ (num1 width1 : Nat) (heap1 : Heap) (p w1 : Nat),
      plain_to_raw_heap heap line num1 width1 = some (heap1, p, w1) →
      p = heap.length ∧ heap1.length = heap.length + 1 ∧
        ∀ b, b < heap.length → heap1[b]? = heap[b]? := by
  have hlt : line < heap.length := by
    by_contra hge
    rw [List.getElem?_eq_none (by omega)] at hline
    simp at hline
  have hline1 : (heap ++ [rowBuf body num])[line]? = some blk := by
    rw [List.getElem?_append_left hlt, hline]
  refine ⟨⟨rowBuf body num, newWidth body width,
    plain_to_raw_heap_eq heap line blk body rest num width hline hblk hbody hnum, ?_, hline1, ?_,
    ?_, ?_, written_rowBuf body num, rfl, ?_⟩,
    fun num1 width1 heap1 p w1 h => plain_to_raw_heap_frame heap line blk num1 width1 hline
      heap1 p w1 h⟩
  · intro b hb
    rw [List.getElem?_append_left hb]
  · have := plain_to_raw_heap_eq (heap ++ [rowBuf body num]) line blk body rest num width hline1
      hblk hbody hnum
    simpa using this
  · intro b hb
    rw [List.getElem?_append_left (by simp; omega), List.getElem?_append_left hb]
  · simp [rowBuf, malloc, decodeRow]; omega
  · rw [plain_to_raw_eq body rest num width hbody hnum]; rfl

/-- C18, on a heap whose one block holds the line `"1a2\n"` in five bytes, the
last one never written, decoded twice into rows of 4 bytes. -/
theorem plain_to_raw_idempotent_witness :
    (∃ (row : Buf) (w : Nat),
      plain_to_raw_heap [[some 49, some 97, some 50, some 10, none]] 0 4 0
        = some ([[some 49, some 97, some 50, some 10, none]] ++ [row],
            [[some 49, some 97, some 50, some 10, (none : Option Byte)]].length, w) ∧
      (∀ b, b < [[some 49, some 97, some 50, some 10, (none : Option Byte)]].length →
        ([[some 49, some 97, some 50, some 10, none]] ++ [row])[b]?
          = [[some 49, some 97, some 50, some 10, none]][b]?) ∧
      ([[some 49, some 97, some 50, some 10, none]] ++ [row])[0]?
        = some [some 49, some 97, some 50, some 10, none] ∧
      plain_to_raw_heap ([[some 49, some 97, some 50, some 10, none]] ++ [row]) 0 4 0
        = some ([[some 49, some 97, some 50, some 10, none]] ++ [row] ++ [row],
            [[some 49, some 97, some 50, some 10, (none : Option Byte)]].length + 1, w) ∧
      (∀ b, b < [[some 49, some 97, some 50, some 10, (none : Option Byte)]].length →
        ([[some 49, some 97, some 50, some 10, none]] ++ [row] ++ [row])[b]?
          = [[some 49, some 97, some 50, some 10, none]][b]?) ∧
      row.length = 4 ∧ written row = decodeRow [49, 97, 50] ∧
      w = newWidth [49, 97, 50] 0 ∧
      plain_to_raw ([49, 97, 50] ++ NL :: []) 4 0 = some (row, w)) ∧
    ∀ (num1 width1 : Nat) (heap1 : Heap) (p w1 : Nat),
      plain_to_raw_heap [[some 49, some 97, some 50, some 10, none]] 0 num1 width1
        = some (heap1, p, w1) →
      p = [[some 49, some 97, some 50, some 10, (none : Option Byte)]].length ∧
        heap1.length = [[some 49, some 97, some 50, some 10, (none : Option Byte)]].length + 1 ∧
        ∀ b, b < [[some 49, some 97, some 50, some 10, (none : Option Byte)]].length →
          heap1[b]? = [[some 49, some 97, some 50, some 10, none]][b]? :=
  plain_to_raw_idempotent [[some 49, some 97, some 50, some 10, none]] 0
    [some 49, some 97, some 50, some 10, none] [49, 97, 50] [] 4 0
    (by decide) (by decide) (by decide) (by decide)

/-- C19: byte truncation.  For a line all of whose digit runs have a decimal
value that fits in a `long`, decoded into a buffer that has room for the runs,
`plain_to_raw` emits for each run the byte `v mod 256`, where `v` is the
decimal value of the run; for `v` at most 255 the byte is `v`. -/
theorem plain_to_raw_truncates (body rest : List Byte) (num width : Nat)
    (hbody : ∀ x ∈ body, x ≠ NL) (hnum : (digitRuns body).length ≤ num)
    (hlong : ∀ r ∈ digitRuns body, decimal r ≤ 9223372036854775807) :
    ∃ row : List Byte,
      plain_to_raw (body ++ NL :: rest) num width
        = some (row.map some ++ malloc (num - (digitRuns body).length),
            if (digitRuns body).length = 0 then width else (digitRuns body).length) ∧
      row.map Fin.val = (digitRuns body).map (fun r => decimal r % 256) ∧
      ∀ i (hi : i < row.length) (hr : i < (digitRuns body).length),
        decimal ((digitRuns body).get ⟨i, hr⟩) ≤ 255 →
          (row.get ⟨i, hi⟩).val = decimal ((digitRuns body).get ⟨i, hr⟩) := by
  have hval : (decodeRow body).map Fin.val = (digitRuns body).map (fun r => decimal r % 256) := by
    rw [decodeRow_val_clamp]
    apply List.map_congr_left
    intro r hr
    rw [Nat.min_eq_left (hlong r hr)]
  refine ⟨decodeRow body, plain_to_raw_eq body rest num width hbody hnum, hval, ?_⟩
  intro i hi hr hsmall
  have h1 : ((decodeRow body).map Fin.val)[i]? = some ((decodeRow body).get ⟨i, hi⟩).val := by
    simp [List.getElem?_map, List.getElem?_eq_getElem hi]
  rw [hval] at h1
  simp only [List.getElem?_map, List.getElem?_eq_getElem hr, Option.map_some',
    Option.some.injEq] at h1
  rw [← h1]
  exact Nat.mod_eq_of_lt (by simp only [List.get_eq_getElem] at hsmall; omega)

/-- C19, on the line `"255 256 300 7\n"`: the bytes are 255, 0, 44 and 7. -/
theorem plain_to_raw_truncates_witness :
    ∃ row : List Byte,
      plain_to_raw ([50, 53, 53, 32, 50, 53, 54, 32, 51, 48, 48, 32, 55] ++ NL :: []) 14 0
        = some (row.map some ++ malloc (14 - 4), 4) ∧
      row.map Fin.val = [255, 0, 44, 7] ∧
      ∀ i (hi : i < row.length)
        (hr : i < (digitRuns [50, 53, 53, 32, 50, 53, 54, 32, 51, 48, 48, 32, 55]).length),
        decimal ((digitRuns [50, 53, 53, 32, 50, 53, 54, 32, 51, 48, 48, 32, 55]).get ⟨i, hr⟩)
            ≤ 255 →
          (row.get ⟨i, hi⟩).val
            = decimal ((digitRuns [50, 53, 53, 32, 50, 53, 54, 32, 51, 48, 48, 32, 55]).get
                ⟨i, hr⟩) :=
  plain_to_raw_truncates [50, 53, 53, 32, 50, 53, 54, 32, 51, 48, 48, 32, 55] [] 14 0
    (by decide) (by decide) (by decide)

/-- C20: the reader buffer invariant.  In the call of `readaline` on any
stream, after any number `i` of runs of the body of the loop of
`read_through`: the capacity is 1000 times a power of two, the line buffer
has that many bytes, and the counter is at least 1 and at most the capacity
minus 1.  When the loop goes on, the capacity doubles exactly when the counter
equals the capacity minus 1, and the store of the body, at index counter
minus 1, is below the capacity that holds then; when the loop ends on a
newline, the store of the terminator, at index counter minus 1, is below the
capacity.  The loop of the call is the loop stopped after `i` runs of the
body followed by the rest of the loop, and the call returns without a
fault. -/
theorem readaline_buffer_invariant (inputfd : List Byte) (i : Nat) :
    ∃ (c_int : Int) (counter cap : Nat) (line : Buf) (fd : List Byte),
      readaline_state inputfd i = some (c_int, counter, cap, line, fd) ∧
      (∃ j, cap = 1000 * 2 ^ j) ∧ line.length = cap ∧ 1 ≤ counter ∧ counter + 1 ≤ cap ∧
      ((toChar c_int ≠ NL ∧ c_int ≠ -1) →
        ∃ line1 : Buf,
          store (if counter = cap - 1 then realloc line (cap * 2) else line) (counter - 1)
              (toChar c_int) = some line1 ∧
          counter - 1 < (if counter = cap - 1 then cap * 2 else cap) ∧
          readaline_state inputfd (i + 1)
            = some ((get_char fd counter).1, counter + 1,
                (if counter = cap - 1 then cap * 2 else cap), line1,
                (get_char fd counter).2.1)) ∧
      (¬ (toChar c_int ≠ NL ∧ c_int ≠ -1) →
        ∃ line2 : Buf, store line (counter - 1) NL = some line2 ∧ counter - 1 < cap) ∧
      read_through (i + 1) (get_char inputfd 0).1 (get_char inputfd 0).2.2 1000 (malloc 1000)
          (get_char inputfd 0).2.1
        = read_through 1 c_int counter cap line fd ∧
      ∃ r, readaline inputfd = some r := by
  have hstart : (get_char inputfd 0).2.2 = 1 := by cases inputfd <;> rfl
  obtain ⟨c_int, counter, cap, line, fd, hst, hj, hlen, h1, h2⟩ :=
    read_through_iter_inv i (get_char inputfd 0).1 (get_char inputfd 0).2.2 1000 (malloc 1000)
      (get_char inputfd 0).2.1 ⟨0, by simp⟩ (malloc_length 1000) (by omega) (by omega)
  refine ⟨c_int, counter, cap, line, fd, hst, hj, hlen, h1, h2, ?_, ?_, ?_, readaline_total inputfd⟩
  · intro hc
    obtain ⟨line1, hs, hlt, hb, _, _, _⟩ :=
      read_through_body_inv c_int counter cap line fd hj hlen h1 h2
    refine ⟨line1, hs, hlt, ?_⟩
    simp only [readaline_state]
    rw [read_through_iter_succ, hst]
    simp only [Option.bind, read_through_iter, if_pos hc, hb]
  · intro _
    have hs : counter - 1 < line.length := by omega
    exact ⟨line.set (counter - 1) (some NL), by simp [store, hs], by omega⟩
  · have := read_through_iter_link 0 i (get_char inputfd 0).1 (get_char inputfd 0).2.2 1000
      (malloc 1000) (get_char inputfd 0).2.1
    rw [hst] at this
    simpa using this

/-- C20, on a stream of 999 bytes `'A'` and a newline, after 998 runs of the
body: the counter is 999, the capacity 1000, and the next run of the body
doubles the capacity to 2000. -/
theorem readaline_buffer_invariant_witness :
    ∃ (c_int : Int) (counter cap : Nat) (line : Buf) (fd : List Byte),
      readaline_state (List.replicate 999 65 ++ [NL]) 998 = some (c_int, counter, cap, line, fd) ∧
      (∃ j, cap = 1000 * 2 ^ j) ∧ line.length = cap ∧ 1 ≤ counter ∧ counter + 1 ≤ cap ∧
      ((toChar c_int ≠ NL ∧ c_int ≠ -1) →
        ∃ line1 : Buf,
          store (if counter = cap - 1 then realloc line (cap * 2) else line) (counter - 1)
              (toChar c_int) = some line1 ∧
          counter - 1 < (if counter = cap - 1 then cap * 2 else cap) ∧
          readaline_state (List.replicate 999 65 ++ [NL]) (998 + 1)
            = some ((get_char fd counter).1, counter + 1,
                (if counter = cap - 1 then cap * 2 else cap), line1,
                (get_char fd counter).2.1)) ∧
      (¬ (toChar c_int ≠ NL ∧ c_int ≠ -1) →
        ∃ line2 : Buf, store line (counter - 1) NL = some line2 ∧ counter - 1 < cap) ∧
      read_through (998 + 1) (get_char (List.replicate 999 65 ++ [NL]) 0).1
          (get_char (List.replicate 999 65 ++ [NL]) 0).2.2 1000 (malloc 1000)
          (get_char (List.replicate 999 65 ++ [NL]) 0).2.1
        = read_through 1 c_int counter cap line fd ∧
      ∃ r, readaline (List.replicate 999 65 ++ [NL]) = some r :=
  readaline_buffer_invariant (List.replicate 999 65 ++ [NL]) 998

/-- C21: the decode assertion cannot fail.  For a newline-terminated line,
decoded into a buffer that has room for the digit runs, the loop of
`plain_to_raw` completes, and at each of its calls of `get_digits`, one for
each digit run of the line: the cursor is on a digit, at the start of a
maximal digit run; the call succeeds, so the assertion `temp != *remaining_p`
holds, and consumes at least one byte; after it the cursor is on the first
byte after the run, which is no digit, at or before the terminator. -/
theorem get_digits_assertion_holds (body rest : List Byte) (num width : Nat)
    (hbody : ∀ x ∈ body, x ≠ NL) (hnum : (digitRuns body).length ≤ num) :
    ∃ (new_line : Buf) (w : Nat) (calls : List (List Byte × List Byte)),
      plain_to_raw_traced ((body ++ NL :: rest).length + 1) (body ++ NL :: rest) (malloc num) 0
          width = some (new_line, w, calls) ∧
      plain_to_raw (body ++ NL :: rest) num width = some (new_line, w) ∧
      calls.map (fun call => call.1.takeWhile isdigit) = digitRuns body ∧
      ∀ call ∈ calls,
        GoodCall rest call ∧ call.2.length < call.1.length ∧
        ∃ d more, call.1 = d :: more ∧ isdigit d = true := by
  have heq := plain_to_raw_eq body rest num width hbody hnum
  have hlink := plain_to_raw_traced_link ((body ++ NL :: rest).length + 1) (body ++ NL :: rest)
    (malloc num) 0 width
  rw [plain_to_raw] at heq
  cases htr : plain_to_raw_traced ((body ++ NL :: rest).length + 1) (body ++ NL :: rest)
      (malloc num) 0 width with
  | none => rw [htr, heq] at hlink; simp at hlink
  | some r =>
    obtain ⟨new_line, w, calls⟩ := r
    rw [htr, heq] at hlink
    simp only [Option.map_some', Option.some.injEq] at hlink
    obtain ⟨hgood, hmap⟩ := plain_to_raw_traced_calls rest _ body (malloc num) 0 width _ hbody htr
    refine ⟨new_line, w, calls, rfl, ?_, hmap, ?_⟩
    · rw [plain_to_raw, heq, hlink]
    · intro call hcall
      have hg := hgood call hcall
      obtain ⟨run, aft, digits, h1, h2, hne, hds, _, _, _⟩ := hg
      refine ⟨hgood call hcall, ?_, ?_⟩
      · rw [h1, h2]
        cases run with
        | nil => exact absurd rfl hne
        | cons d run1 => simp; omega
      · cases run with
        | nil => exact absurd rfl hne
        | cons d run1 => exact ⟨d, run1 ++ (aft ++ NL :: rest), by rw [h1]; rfl, hds d (by simp)⟩

/-- C21, on the line `"a12b7\n"`: two calls, on `"12b7\n"` and on `"7\n"`. -/
theorem get_digits_assertion_holds_witness :
    ∃ (new_line : Buf) (w : Nat) (calls : List (List Byte × List Byte)),
      plain_to_raw_traced (([97, 49, 50, 98, 55] ++ NL :: []).length + 1)
          ([97, 49, 50, 98, 55] ++ NL :: []) (malloc 6) 0 0 = some (new_line, w, calls) ∧
      plain_to_raw ([97, 49, 50, 98, 55] ++ NL :: []) 6 0 = some (new_line, w) ∧
      calls.map (fun call => call.1.takeWhile isdigit) = [[49, 50], [55]] ∧
      ∀ call ∈ calls,
        GoodCall [] call ∧ call.2.length < call.1.length ∧
        ∃ d more, call.1 = d :: more ∧ isdigit d = true :=
  get_digits_assertion_holds [97, 49, 50, 98, 55] [] 6 0 (by decide) (by decide)

/-- C22, refuted: the stream is one line of `2^31` bytes `a` and its newline.
`readaline` returns the line, of `2^31 + 1` bytes.  In `plain_to_infusion` the
indices `counter` and `infusion_counter`, of type `int`, reach `INT_MAX` at the
last `a` and their increment overflows, so the call does not stay inside its
buffers, and neither does the run of `restoration` that makes it; with the
counters unbounded the same call completes. -/
theorem int_index_counterexample :
    readaline (List.replicate 2147483648 97 ++ NL :: [])
      = some (2147483649, some (List.replicate 2147483648 97 ++ [NL]), []) ∧
    (∃ r, plain_to_infusion (List.replicate 2147483648 97 ++ NL :: []) 2147483649 = some r) ∧
    plain_to_infusion_int (List.replicate 2147483648 97 ++ NL :: []) 2147483649 = none ∧
    restoration_int (List.replicate 2147483648 97 ++ NL :: []) = none := by
  have hbody : ∀ x ∈ List.replicate 2147483648 (97 : Byte), x ≠ NL := by
    intro x hx; rw [List.eq_of_mem_replicate hx]; decide
  have hlen : (List.replicate 2147483648 (97 : Byte)).length = 2147483648 :=
    List.length_replicate _ _
  have hover : INT_MAX < (List.replicate 2147483648 (97 : Byte)).length := by
    rw [hlen]; decide
  refine ⟨?_, ?_, plain_to_infusion_int_overflow _ [] _ hbody hover,
    restoration_int_overflow _ [] hbody hover⟩
  · have h := readaline_line (List.replicate 2147483648 97) [] hbody
    rw [hlen] at h
    exact h
  · exact ⟨_, plain_to_infusion_eq (List.replicate 2147483648 97) [] 2147483649 hbody (by
      have := signature_length_le (List.replicate 2147483648 (97 : Byte))
      rw [hlen] at this
      omega)⟩

/-- C22, amended: no buffer is indexed out of bounds on lines of at most `INT_MAX`
bytes before the newline.  A line has at most one digit run more than it has
bytes that are no digits, so a line `l1` with the signature of a line `l2` has
at most as many digit runs as `l2` has bytes, terminator included.  Hence, for
`l1` of at most `INT_MAX` bytes, `plain_to_infusion` on `l1` with its own
length, and `plain_to_raw` on `l1` with the length of `l2`, as in
`add_duplicates`, or with its own length, complete without a store outside the
buffer they allocate and without an overflow of a counter; and on every stream
whose lines have at most `INT_MAX` bytes `restoration` completes, and every row
handed to `print_image` has at least `width` bytes, so that every read
`popped_line[i]` with `i < width` is inside the row. -/
theorem buffers_in_bounds (ls : List (List Byte)) (tail l1 l2 : List Byte) (width : Nat)
    (hls : ∀ l ∈ ls, (∀ x ∈ l, x ≠ NL) ∧ l.length ≤ INT_MAX) (htail : ∀ x ∈ tail, x ≠ NL)
    (h1 : ∀ x ∈ l1, x ≠ NL) (hlen : l1.length ≤ INT_MAX)
    (hsig : signature l1 = signature l2) :
    (digitRuns l1).length ≤ (signature l1).length + 1 ∧
    (digitRuns l1).length ≤ l2.length + 1 ∧
    (∃ infusion : Buf,
      plain_to_infusion_int (l1 ++ [NL]) (l1.length + 1)
        = some (infusion, (signature l1).length) ∧
      infusion.length = l1.length + 1 ∧ (signature l1).length ≤ infusion.length ∧
      written infusion = signature l1) ∧
    (∃ row : Buf,
      plain_to_raw_int (l1 ++ [NL]) (l2.length + 1) width = some (row, newWidth l1 width) ∧
      row.length = l2.length + 1 ∧ (digitRuns l1).length ≤ row.length ∧
      written row = decodeRow l1 ∧ (written row).length = (digitRuns l1).length) ∧
    (∃ row : Buf,
      plain_to_raw_int (l1 ++ [NL]) (l1.length + 1) width = some (row, newWidth l1 width) ∧
      row.length = l1.length + 1 ∧ (digitRuns l1).length ≤ row.length ∧
      written row = decodeRow l1 ∧ (written row).length = (digitRuns l1).length) ∧
    ∃ out : Output, restoration_int (streamOf ls ++ tail) = some out ∧
      ∀ rows w, (rows, w) ∈ out.images →
        ∀ row ∈ rows, w ≤ row.length ∧ ∀ i, i < w → ∃ c, load row i = some c := by
  have hr := digitRuns_length_le l1
  have hs1 := signature_length_le l1
  have hs2 := signature_length_le l2
  have hr2 : (digitRuns l1).length ≤ l2.length + 1 := by rw [hsig] at hr; omega
  have hshort : (l1 ++ [NL]).length ≤ INT_MAX + 1 := by simp; omega
  have hrow : ∀ num, (digitRuns l1).length ≤ num →
      ∃ row : Buf, plain_to_raw_int (l1 ++ [NL]) num width = some (row, newWidth l1 width) ∧
        row.length = num ∧ (digitRuns l1).length ≤ row.length ∧
        written row = decodeRow l1 ∧ (written row).length = (digitRuns l1).length := by
    intro num hnum
    rw [plain_to_raw_int_eq _ num width hshort]
    have hlen : (rowBuf l1 num).length = num := by
      simp [rowBuf, malloc, decodeRow]; omega
    refine ⟨rowBuf l1 num, plain_to_raw_eq l1 [] num width h1 hnum, hlen, by omega,
      written_rowBuf l1 num, ?_⟩
    rw [written_rowBuf, decodeRow_length]
  refine ⟨hr, hr2, ?_, hrow _ hr2, hrow _ (by omega), ?_⟩
  · rw [plain_to_infusion_int_eq _ _ hshort]
    refine ⟨_, plain_to_infusion_eq l1 [] (l1.length + 1) h1 (by omega), ?_, ?_,
      written_map_some _ _⟩
    · simp [malloc]; omega
    · simp [malloc]
  · rw [restoration_int_eq _ ⟨ls, tail, rfl, hls, htail⟩]
    rcases restoration_cases (streamOf ls ++ tail) with hnone | ⟨orig, lj, post, hsg, himg⟩
    · exact ⟨_, hnone, by simp⟩
    · refine ⟨_, himg, ?_⟩
      intro rows w hmem row hrowmem
      simp only [List.mem_singleton, Prod.mk.injEq] at hmem
      obtain ⟨rfl, rfl⟩ := hmem
      have hcap := imageRows_capacity orig lj post hsg row hrowmem
      exact ⟨hcap, fun i hi => load_below row i (by omega)⟩

/-- C22, amended, on the stream `"1a2\na\n"` and the lines `"1a2"` and `"a"`:
the line with two digit runs is decoded into a buffer of the two bytes of
`"a\n"`. -/
theorem buffers_in_bounds_witness :
    (digitRuns [49, 97, 50]).length ≤ (signature [49, 97, 50]).length + 1 ∧
    (digitRuns [49, 97, 50]).length ≤ [97].length + 1 ∧
    (∃ infusion : Buf,
      plain_to_infusion_int ([49, 97, 50] ++ [NL]) ([49, 97, 50].length + 1)
        = some (infusion, (signature [49, 97, 50]).length) ∧
      infusion.length = [49, 97, 50].length + 1 ∧
      (signature [49, 97, 50]).length ≤ infusion.length ∧
      written infusion = signature [49, 97, 50]) ∧
    (∃ row : Buf,
      plain_to_raw_int ([49, 97, 50] ++ [NL]) ([97].length + 1) 0
        = some (row, newWidth [49, 97, 50] 0) ∧
      row.length = [97].length + 1 ∧ (digitRuns [49, 97, 50]).length ≤ row.length ∧
      written row = decodeRow [49, 97, 50] ∧
      (written row).length = (digitRuns [49, 97, 50]).length) ∧
    (∃ row : Buf,
      plain_to_raw_int ([49, 97, 50] ++ [NL]) ([49, 97, 50].length + 1) 0
        = some (row, newWidth [49, 97, 50] 0) ∧
      row.length = [49, 97, 50].length + 1 ∧ (digitRuns [49, 97, 50]).length ≤ row.length ∧
      written row = decodeRow [49, 97, 50] ∧
      (written row).length = (digitRuns [49, 97, 50]).length) ∧
    ∃ out : Output, restoration_int (streamOf [[49, 97, 50], [97]] ++ []) = some out ∧
      ∀ rows w, (rows, w) ∈ out.images →
        ∀ row ∈ rows, w ≤ row.length ∧ ∀ i, i < w → ∃ c, load row i = some c :=
  buffers_in_bounds [[49, 97, 50], [97]] [] [49, 97, 50] [97] 0 (by decide) (by decide)
    (by decide) (by decide) (by decide)

/-- C23, refuted: on the stream `"\n"`, `readaline` returns the buffer `"\n"`
of length 1; `find_digit` called on this buffer steps over the newline under
the cursor before it tests for a newline, and reads index 1.  And on the
stream of `2^31` bytes `b` and a newline, `readaline` returns a buffer of
`2^31 + 1` bytes on which the counters of type `int` of `plain_to_infusion`
overflow. -/
theorem find_digit_counterexample :
    (readaline [10] = some (1, some [10], []) ∧ find_digit [10] = none) ∧
    (readaline (List.replicate 2147483648 98 ++ NL :: [])
        = some (2147483649, some (List.replicate 2147483648 98 ++ [NL]), []) ∧
      plain_to_infusion_int (List.replicate 2147483648 98 ++ [NL]) 2147483649 = none) := by
  have hbody : ∀ x ∈ List.replicate 2147483648 (98 : Byte), x ≠ NL := by
    intro x hx; rw [List.eq_of_mem_replicate hx]; decide
  have hlen : (List.replicate 2147483648 (98 : Byte)).length = 2147483648 :=
    List.length_replicate _ _
  have hover : INT_MAX < (List.replicate 2147483648 (98 : Byte)).length := by
    rw [hlen]; decide
  refine ⟨by decide, ?_, plain_to_infusion_int_overflow _ [] _ hbody hover⟩
  have h := readaline_line (List.replicate 2147483648 98) [] hbody
  rw [hlen] at h
  exact h

/-- C23, amended: a line returned by `readaline` with length `n` has `n >= 1`
bytes and exactly one newline, its last byte.  When `n` is at most `2^31`, so
that no counter of type `int` overflows, `plain_to_infusion` and `plain_to_raw`
complete on it, and so does `find_digit` whenever it is called with the cursor
on a byte of the line that is not the newline, as `plain_to_raw` does: it stops
inside the line, on a digit or on the newline.  None of them reads past the
newline (such a read would make the result a fault). -/
theorem scanners_inside_line (fp : List Byte) (n : Nat) (data rest : List Byte) (width : Nat)
    (h : readaline fp = some (n, some data, rest)) (hn : n ≤ INT_MAX + 1) :
    1 ≤ n ∧ data.length = n ∧
    (∃ body, data = body ++ [NL] ∧ (∀ x ∈ body, x ≠ NL) ∧
      (∃ infusion : Buf,
        plain_to_infusion_int data n = some (infusion, (signature body).length) ∧
        written infusion = signature body) ∧
      ∃ row : Buf,
        plain_to_raw_int data n width = some (row, newWidth body width) ∧
        written row = decodeRow body) ∧
    ∀ (pre : List Byte) (c : Byte) (suf : List Byte), data = pre ++ c :: suf → c ≠ NL →
      ∃ (skipped cur : List Byte),
        find_digit (c :: suf) = some cur ∧ c :: suf = skipped ++ cur ∧ cur ≠ [] ∧
        ∀ x ∈ cur.head?, isdigit x = true ∨ x = NL := by
  obtain ⟨body, rfl, hbody, rfl⟩ := readaline_shape fp n data rest h
  have hs := signature_length_le body
  have hr := digitRuns_length_le body
  have hshort : (body ++ [NL]).length ≤ INT_MAX + 1 := by simp; omega
  refine ⟨by omega, by simp, ⟨body, rfl, hbody,
    ⟨_, by rw [plain_to_infusion_int_eq _ _ hshort]
           exact plain_to_infusion_eq body [] _ hbody (by omega), written_map_some _ _⟩,
    ⟨rowBuf body (body.length + 1), by
        rw [plain_to_raw_int_eq _ _ _ hshort]
        exact plain_to_raw_line body _ width hbody (by omega), written_rowBuf _ _⟩⟩, ?_⟩
  intro pre c suf hdata hc
  obtain ⟨m, hm, hsuf⟩ : ∃ m, body = pre ++ m ∧ c :: suf = m ++ [NL] := by
    rcases List.append_eq_append_iff.1 hdata with ⟨a, ha, hb⟩ | ⟨a, ha, hb⟩
    · cases a with
      | nil =>
        simp only [List.nil_append, List.cons.injEq] at hb
        exact absurd hb.1.symm hc
      | cons x a => simp at hb
    · exact ⟨a, ha, hb⟩
  have hmne : m ≠ [] := by
    intro hnil
    rw [hnil] at hsuf
    simp only [List.nil_append, List.cons.injEq] at hsuf
    exact hc hsuf.1
  have hmNL : ∀ x ∈ m, x ≠ NL := fun x hx => hbody x (by rw [hm]; simp [hx])
  obtain ⟨skipped, cur, hfd, hsplit, hlen, hhead⟩ := find_digit_inside m [] hmne hmNL
  rw [hsuf]
  refine ⟨skipped, cur, hfd, hsplit, ?_, hhead⟩
  intro hnil
  rw [hnil] at hlen
  simp at hlen

/-- C23, amended, on the stream `"a1\nb"`: the line is `"a1\n"`. -/
theorem scanners_inside_line_witness :
    1 ≤ 3 ∧ ([97, 49, 10] : List Byte).length = 3 ∧
    (∃ body, ([97, 49, 10] : List Byte) = body ++ [NL] ∧ (∀ x ∈ body, x ≠ NL) ∧
      (∃ infusion : Buf,
        plain_to_infusion_int [97, 49, 10] 3 = some (infusion, (signature body).length) ∧
        written infusion = signature body) ∧
      ∃ row : Buf,
        plain_to_raw_int [97, 49, 10] 3 0 = some (row, newWidth body 0) ∧
        written row = decodeRow body) ∧
    ∀ (pre : List Byte) (c : Byte) (suf : List Byte), [97, 49, 10] = pre ++ c :: suf → c ≠ NL →
      ∃ (skipped cur : List Byte),
        find_digit (c :: suf) = some cur ∧ c :: suf = skipped ++ cur ∧ cur ≠ [] ∧
        ∀ x ∈ cur.head?, isdigit x = true ∨ x = NL :=
  scanners_inside_line [97, 49, 10, 98] 3 [97, 49, 10] [98] 0 (by decide) (by decide)

end Filesofpix
